import Mathlib

/-!
# Binary link-layer codecs of `cndocs`

A shallow embedding of the codec routines of the repository and the
properties its specification states about them.

* `UnixCrc`    : `src/codes/unix-crc/server.c` (`toBin`, `toDec`, `CRC`)
* `UdpHamming` : `src/codes/udp-hamming/server.c` (`calculateParity`,
  `reverseString`, `generateHammingCode`)
* `BitStuff`   : `src/codes/tcp-bit-stuff/custom.h` (`bit_stuffing`) and the
  in-place loop of `src/codes/tcp-bit-stuff/server.c`
* `MsgQueue`   : `src/codes/message-queue-1/p1.c` (`toBinary`, `toOctal`, `toHex`)

C strings are lists of characters (the terminating NUL is the end of the
list).  Machine integers are `Nat`/`Int`; the theorems carry the length
bounds under which the C arithmetic is exact.
-/

namespace UnixCrc

/-- Halving `x` until it is zero, counting the rounds; the first argument
bounds the number of rounds. -/
def bitLengthAux : Nat → Nat → Nat
  | 0, _ => 0
  | fuel + 1, x => if x = 0 then 0 else bitLengthAux fuel (x / 2) + 1

/-- The value of `(int) ceil(log2(x + 1))` for a non-negative integer `x`:
the number of binary digits of `x` (0 for `x = 0`), that is the least `k`
with `x < 2 ^ k`.  For operands that fit a 32-bit `int` the double-precision
computation of the source is exact. -/
def bitLength (x : Nat) : Nat :=
  bitLengthAux x x

/-- The first loop of `toBin`: the binary digits of `num`, least significant
first (`bin[i++] = (num & 1) ? '1' : '0'; num = num >> 1` while `num` is
non-zero).  The first argument bounds the number of iterations. -/
def toBinDigits : Nat → Nat → List Char
  | 0, _ => []
  | fuel + 1, num =>
    if num = 0 then []
    else (if num &&& 1 = 1 then '1' else '0') :: toBinDigits fuel (num >>> 1)

/-- The routine `toBin`: the digits are written least significant first and
the buffer is then reversed in place.  `num` itself is enough fuel, the
loop halves `num` on every round. -/
def toBin (num : Nat) : List Char :=
  (toBinDigits num num).reverse

/-- The loop of `toDec` from index `i` on: the argument is the rest of the
string `bin[i..]`, so that `len - i - 1` is the length of what follows the
current character. -/
def toDecLoop : List Char → Nat → Nat
  | [], num => num
  | c :: rest, num =>
    toDecLoop rest (if c = '1' then num + (1 <<< rest.length) else num)

/-- The routine `toDec`: every character `'1'` at index `i` adds
`1 << (len - i - 1)`; any other character adds nothing. -/
def toDec (bin : List Char) : Nat :=
  toDecLoop bin 0

/-- The division loop of `CRC`,
`while ((dividend >= gen) || (shft >= 0)) { ... }`.  The result is `none`
when the fuel runs out, or when the body would shift by a negative count
(undefined in C). -/
def crcLoop (gen l_gen : Nat) : Nat → Nat → Int → Option Nat
  | fuel, dividend, shft =>
    if dividend ≥ gen ∨ shft ≥ 0 then
      match fuel with
      | 0 => none
      | fuel + 1 =>
        if shft < 0 then none
        else
          let s := shft.toNat
          let rem := (dividend >>> s) ^^^ gen
          let dividend1 := (dividend &&& ((1 <<< s) - 1)) ||| (rem <<< s)
          crcLoop gen l_gen fuel dividend1 ((bitLength dividend1 : Int) - (l_gen : Int))
    else some dividend

/-- The division of `CRC` on its own: the initial shift
`ceil(log2(dividend + 1)) - l_gen` followed by the loop, for a dividend and a
generator string.  `CRC` runs it on the shifted dataword; run on `toDec` of a
received word it is the check the specification calls `verify`, which
accepts the word exactly when the result is 0. -/
def crcRemainder (fuel : Nat) (dividend : Nat) (generator : List Char) : Option Nat :=
  crcLoop (toDec generator) generator.length fuel dividend
    ((bitLength dividend : Int) - (generator.length : Int))

/-- The routine `CRC`.  The result is the pair of the global buffers
`(cw, rm)` after the call.  `rm` is copied from `bin_codeword +
strlen(dataword)`; when that offset lies past the terminator of
`bin_codeword` the copied bytes are indeterminate and `rm` is `none`.
(For an empty generator the shift count `l_gen - 1` is negative in C; the
theorems are about generators of at least two characters.) -/
def CRC (fuel : Nat) (dataword generator : List Char) :
    Option (List Char × Option (List Char)) :=
  let l_gen := generator.length
  let dword := toDec dataword
  let dividend := dword <<< (l_gen - 1)
  match crcRemainder fuel dividend generator with
  | none => none
  | some dividend1 =>
    let codeword := (dword <<< (l_gen - 1)) ||| dividend1
    let bin_codeword := toBin codeword
    let bin_dividend :=
      if dataword.length ≤ bin_codeword.length then
        some (bin_codeword.drop dataword.length)
      else none
    some (bin_codeword, bin_dividend)

/-- Flipping the bit at index `k` of a bit-string: `'1'` becomes `'0'` and
any other character becomes `'1'`. -/
def flipBit (w : List Char) (k : Nat) : List Char :=
  w.set k (if w.getD k '0' = '1' then '0' else '1')

/-- One run of the division loop seen as a relation: `Reduces gen L x r`
holds when XOR-ing aligned copies of `gen` into `x`, as long as `x` has at
least `L` binary digits, ends at `r`. -/
inductive Reduces (gen L : Nat) : Nat → Nat → Prop
  | done (x : Nat) : bitLength x < L → Reduces gen L x x
  | step (x r : Nat) : L ≤ bitLength x →
      Reduces gen L (x ^^^ (gen <<< (bitLength x - L))) r → Reduces gen L x r

end UnixCrc

namespace UdpHamming

/-- The assignment `code[i] = v` on the global array `int code[32]`, seen as
a map from indices to values. -/
def setCode (code : Nat → Int) (i : Nat) (v : Int) : Nat → Int :=
  fun x => if x = i then v else code x

/-- The inner loop of `calculateParity`,
`for (j = i; j < i + position && j < totalLength; j++) if (code[j] == 1) count++;`
from the current `j` on.  It makes at most `position` rounds, which is the
fuel it is given. -/
def parityInnerLoop (code : Nat → Int) (i position totalLength : Nat) :
    Nat → Nat → Nat → Nat
  | 0, _, count => count
  | fuel + 1, j, count =>
    if j < i + position ∧ j < totalLength then
      parityInnerLoop code i position totalLength fuel (j + 1)
        (if code j = 1 then count + 1 else count)
    else count

/-- The outer loop of `calculateParity`,
`for (i = position - 1; i < totalLength; i += 2 * position)`, from the
current `i` on.  For `position ≥ 1` it makes at most `totalLength` rounds,
which is the fuel it is given. -/
def parityOuterLoop (code : Nat → Int) (position totalLength : Nat) :
    Nat → Nat → Nat → Nat
  | 0, _, count => count
  | fuel + 1, i, count =>
    if i < totalLength then
      parityOuterLoop code position totalLength fuel (i + 2 * position)
        (parityInnerLoop code i position totalLength position i count)
    else count

/-- The routine `calculateParity`: 0 when the number of entries equal to 1
in the group of `position` is even, else 1. -/
def calculateParity (code : Nat → Int) (position totalLength : Nat) : Int :=
  let count := parityOuterLoop code position totalLength totalLength (position - 1) 0
  if count % 2 = 0 then 0 else 1

/-- The routine `reverseString`: `rev[i] = input[len - i - 1]` for every
`i < len`. -/
def reverseString (input : List Char) : List Char :=
  (List.range input.length).map (fun i => input.getD (input.length - i - 1) (Char.ofNat 0))

/-- The loop `while (n > (int)pow(2, parityCount) - (parityCount + 1)) parityCount++;`
of `generateHammingCode`; `none` when the fuel runs out. -/
def parityCountLoop (n : Nat) : Nat → Nat → Option Nat
  | fuel, parityCount =>
    if (n : Int) > (2 : Int) ^ parityCount - ((parityCount : Int) + 1) then
      match fuel with
      | 0 => none
      | fuel + 1 => parityCountLoop n fuel (parityCount + 1)
    else some parityCount

/-- The value `dataword[j] - '0'` stored for a data bit. -/
def digitValue (c : Char) : Int :=
  (c.toNat : Int) - ('0'.toNat : Int)

/-- The loop of `generateHammingCode` that lays out the data bits and the
parity placeholders, `for (i = 0; i < totalBits; i++)`, from the current
`i`, `j`, `k` on; the first argument is the number of rounds left.  Reading
`dataword[j]` at or past the end of the string yields the terminator. -/
def layoutLoop (dataword : List Char) : Nat → Nat → Nat → Nat → (Nat → Int) → (Nat → Int)
  | 0, _, _, _, code => code
  | rounds + 1, i, j, k, code =>
    if i = 2 ^ k - 1 then
      layoutLoop dataword rounds (i + 1) j (k + 1) (setCode code i 0)
    else
      layoutLoop dataword rounds (i + 1) (j + 1) k
        (setCode code i (digitValue (dataword.getD j (Char.ofNat 0))))

/-- The loop of `generateHammingCode` that fills in the parity bits,
`for (i = 0; i < parityCount; i++) code[pow(2, i) - 1] = calculateParity(pow(2, i), totalBits)`,
from the current `i` on; the first argument is the number of rounds left. -/
def parityLoop (totalBits : Nat) : Nat → Nat → (Nat → Int) → (Nat → Int)
  | 0, _, code => code
  | rounds + 1, i, code =>
    parityLoop totalBits rounds (i + 1)
      (setCode code (2 ^ i - 1) (calculateParity code (2 ^ i) totalBits))

/-- The memory `generateHammingCode` writes: the caller's `dataword` buffer,
the global array `code` and the global string `hammingCode`. -/
structure HammingState where
  dataword : List Char
  code : Nat → Int
  hammingCode : List Char

/-- The routine `generateHammingCode`, run on the caller's buffer `dataword`
with the global array `code` in the state the previous call left it.  The
result is `none` when the parity-count loop runs out of fuel. -/
def generateHammingCode (fuel : Nat) (code : Nat → Int) (dataword : List Char) :
    Option HammingState :=
  let n := dataword.length
  let reversedData := reverseString dataword
  let dataword := reversedData
  match parityCountLoop n fuel 0 with
  | none => none
  | some parityCount =>
    let totalBits := parityCount + n
    let code := layoutLoop dataword totalBits 0 0 0 code
    let code := parityLoop totalBits parityCount 0 code
    let hammingCode :=
      (List.range totalBits).map (fun i => if code (totalBits - i - 1) = 0 then '0' else '1')
    some { dataword := dataword, code := code, hammingCode := hammingCode }

/-- The number of indices `j < a` of the array that lie in the parity group
of `position` (the blocks of `position` consecutive indices starting at
`position - 1`, `3 * position - 1`, ...: those with `(j + 1) / position`
odd) and hold the value 1. -/
def groupCount (code : Nat → Int) (position a : Nat) : Nat :=
  (List.range a).countP (fun j => decide ((j + 1) / position % 2 = 1) && decide (code j = 1))

/-- A position `q` (counted from 1) is a power of two. -/
def isPowerOfTwo (q : Nat) : Prop := ∃ k, k < q ∧ q = 2 ^ k

instance (q : Nat) : Decidable (isPowerOfTwo q) := by
  unfold isPowerOfTwo; infer_instance

/-- The characters of a codeword that are not at a power-of-two position,
positions counted from 1 at the right end, in the order of the string. -/
def dataCharacters (w : List Char) : List Char :=
  ((List.range w.length).filter (fun s => ¬ isPowerOfTwo (w.length - s))).map
    (fun s => w.getD s '0')

/-- The number of `'1'` characters of a codeword in the parity group of
bit `i`: the positions `q` (counted from 1 at the right end) whose binary
representation has bit `i` set. -/
def groupOnes (w : List Char) (i : Nat) : Nat :=
  (List.range w.length).countP
    (fun j => (j + 1).testBit i && decide (w.getD (w.length - 1 - j) '0' = '1'))

end UdpHamming

namespace BitStuff

/-- The loop of `bit_stuffing` from the current character on, with the
counter `count` and the flag `flag`: every character is copied; a `'1'` that
brings the counter to 5 while the flag is set is followed by a `'0'`, and
the counter and the flag are cleared; any other character clears the counter
and sets the flag.  The result is what is appended to `output`. -/
def bitStuffingLoop : List Char → Nat → Bool → List Char
  | [], _, _ => []
  | c :: rest, count, flag =>
    if c = '1' then
      if count + 1 = 5 ∧ flag = true then c :: '0' :: bitStuffingLoop rest 0 false
      else c :: bitStuffingLoop rest (count + 1) flag
    else c :: bitStuffingLoop rest 0 true

/-- The routine `bit_stuffing` of `custom.h` (`count = 0`, `flag = 0` at the
start).  The C buffer holds `MAX = 100` bytes. -/
def bit_stuffing (input : List Char) : List Char :=
  bitStuffingLoop input 0 false

/-- The inner loop of the server, `for (j = i + 1; j < strlen(bit); j++)`,
on the rest of the buffer `bit[j..]`, followed by `bit[j] = prev`: every
character moves one place to the right and `prev` takes the first place. -/
def shiftLoop (prev : Char) : List Char → List Char
  | [] => [prev]
  | curr :: rest => prev :: shiftLoop curr rest

/-- The in-place loop of the server's `main`,
`for (i = 0; i < strlen(bit); i++)`, from the current `i` and `count` on;
`none` when the fuel runs out. -/
def serverLoop : Nat → List Char → Nat → Nat → Option (List Char)
  | fuel, bit, i, count =>
    if i < bit.length then
      match fuel with
      | 0 => none
      | fuel + 1 =>
        let c := bit.getD i (Char.ofNat 0)
        let count1 := if c = '1' then count + 1 else count
        let count2 := if c = '0' then 0 else count1
        if count2 = 5 then
          serverLoop fuel (bit.take (i + 1) ++ shiftLoop '0' (bit.drop (i + 1))) (i + 1) count2
        else serverLoop fuel bit (i + 1) count2
    else some bit

/-- What the server sends back for the received string `bit`
(`count = 0`, `i = 0` at the start). -/
def serverStuff (fuel : Nat) (bit : List Char) : Option (List Char) :=
  serverLoop fuel bit 0 0

/-- The (at most six) characters of `s` that end at index `i`. -/
def sixEndingAt (s : List Char) (i : Nat) : List Char :=
  (((s.take (i + 1)).reverse).take 6).reverse

/-- What the rule gated by a preceding `'0'` emits for the character at
index `i` of `s`. -/
def stuffAt (s : List Char) (i : Nat) : List Char :=
  if sixEndingAt s i = ['0', '1', '1', '1', '1', '1'] then [s.getD i '0', '0']
  else [s.getD i '0']

/-- The string `s` with a `'0'` inserted after every character that ends an
occurrence of `011111` in `s`: the stuffing rule gated by a preceding
`'0'`, stated on the input alone. -/
def stuffAfterZeroFiveOnes (s : List Char) : List Char :=
  (List.range s.length).flatMap (stuffAt s)

/-- What the server's loop does to the rest of the buffer, as a function of
that rest and the counter: a character that brings the counter to 5 is
followed by a `'0'`, which clears the counter. -/
def stuffRest : List Char → Nat → List Char
  | [], _ => []
  | c :: rest, count =>
    if (if c = '0' then 0 else if c = '1' then count + 1 else count) = 5 then
      c :: '0' :: stuffRest rest 0
    else c :: stuffRest rest (if c = '0' then 0 else if c = '1' then count + 1 else count)

/-- The invariant of the loop of `bit_stuffing`, on the characters read so
far, last one first: with the flag set the counter is below 5 and counts
the `'1'`s read since the last `'0'`; with the flag clear the last five
characters read (or all of them) are `'1'`s. -/
def StuffInv (prev : List Char) (count : Nat) (flag : Bool) : Prop :=
  (flag = true → count ≤ 4 ∧ ∃ q, prev = List.replicate count '1' ++ '0' :: q) ∧
  (flag = false → ∀ c, c ∈ prev.take 5 → c = '1')

/-- Whether a counter of consecutive `'1'`s that starts at `count` reaches 5
somewhere in the string. -/
def counterReachesFive : List Char → Nat → Bool
  | [], _ => false
  | c :: rest, count =>
    if c = '1' then (decide (count + 1 = 5) || counterReachesFive rest (count + 1))
    else counterReachesFive rest 0

end BitStuff

namespace MsgQueue

/-- The loop of `toBinary`: for `bit = 31, 30, ..., 0` the character
`((num >> bit) & 1) ? '1' : '0'`.  `>>` on a negative `int` is the
arithmetic shift (`Int.shiftRight`, rounding down), and `x & 1` is the
remainder of `x` modulo 2. -/
def toBinary (num : Int) : List Char :=
  (List.range 32).map (fun (k : Nat) => if (num >>> (31 - k)) % 2 ≠ 0 then '1' else '0')

/-- The loop of `toOctal` over the rest of the shifts `30, 27, ..., 0`; the
output so far is `oct[0..i)`, and a digit is written when `i || digit`.
`x & 7` is the remainder of `x` modulo 8. -/
def toOctalLoop (num : Int) : List Nat → List Char → List Char
  | [], oct => oct
  | shift :: rest, oct =>
    let digit := (num >>> shift) % 8
    if oct.length ≠ 0 ∨ digit ≠ 0 then
      toOctalLoop num rest (oct ++ [Char.ofNat (digit.toNat + '0'.toNat)])
    else toOctalLoop num rest oct

/-- The routine `toOctal`: the loop, then a single `'0'` when nothing was
written. -/
def toOctal (num : Int) : List Char :=
  let oct := toOctalLoop num ((List.range 11).map (fun k => 30 - 3 * k)) []
  if oct.length = 0 then ['0'] else oct

/-- The loop of `toHex` over the rest of the shifts `28, 24, ..., 0`.
`x & 15` is the remainder of `x` modulo 16. -/
def toHexLoop (num : Int) : List Nat → List Char → List Char
  | [], hex => hex
  | shift :: rest, hex =>
    let digit := (num >>> shift) % 16
    if hex.length ≠ 0 ∨ digit ≠ 0 then
      toHexLoop num rest
        (hex ++ [if digit < 10 then Char.ofNat (digit.toNat + '0'.toNat)
                 else Char.ofNat (digit.toNat - 10 + 'A'.toNat)])
    else toHexLoop num rest hex

/-- The routine `toHex`: the loop, then a single `'0'` when nothing was
written. -/
def toHex (num : Int) : List Char :=
  let hex := toHexLoop num ((List.range 8).map (fun k => 28 - 4 * k)) []
  if hex.length = 0 then ['0'] else hex

/-- The value of a digit character: `'0'..'9'` are 0..9 and `'A'..'F'` are
10..15. -/
def digitOf (c : Char) : Nat :=
  if c.toNat < 'A'.toNat then c.toNat - '0'.toNat else c.toNat - 'A'.toNat + 10

/-- The number a numeral spells in base `b`, most significant digit first. -/
def readBase (b : Nat) (s : List Char) : Nat :=
  s.foldl (fun acc c => acc * b + digitOf c) 0

end MsgQueue

namespace UnixCrc

/-! ### Bit length -/

theorem bitLengthAux_le_iff (fuel : Nat) : ∀ x k : Nat, x ≤ fuel →
    (bitLengthAux fuel x ≤ k ↔ x < 2 ^ k) := by
  induction fuel with
  | zero =>
    intro x k hx
    have hx0 : x = 0 := by omega
    subst hx0
    simp [bitLengthAux]
  | succ fuel ih =>
    intro x k hx
    unfold bitLengthAux
    by_cases h0 : x = 0
    · subst h0; simp
    · rw [if_neg h0]
      cases k with
      | zero => simp; omega
      | succ k =>
        have hdiv : x / 2 ≤ fuel := by omega
        rw [Nat.add_le_add_iff_right, ih (x / 2) k hdiv, pow_succ]
        omega

theorem bitLength_le_iff (x k : Nat) : bitLength x ≤ k ↔ x < 2 ^ k :=
  bitLengthAux_le_iff x x k (Nat.le_refl x)

theorem lt_two_pow_bitLength (x : Nat) : x < 2 ^ bitLength x :=
  (bitLength_le_iff x _).1 (Nat.le_refl _)

theorem bitLength_zero : bitLength 0 = 0 := by
  have := (bitLength_le_iff 0 0).2 (by simp)
  omega

theorem two_pow_le_of_lt_bitLength {x k : Nat} (h : k < bitLength x) : 2 ^ k ≤ x := by
  by_contra hlt
  have := (bitLength_le_iff x k).2 (by omega)
  omega

theorem lt_bitLength_iff (x k : Nat) : k < bitLength x ↔ 2 ^ k ≤ x := by
  constructor
  · exact two_pow_le_of_lt_bitLength
  · intro h
    by_contra hle
    have := (bitLength_le_iff x k).1 (by omega)
    omega

theorem testBit_top {x n : Nat} (h : bitLength x = n + 1) : x.testBit n = true := by
  have h1 : 2 ^ n ≤ x := (lt_bitLength_iff x n).1 (by omega)
  have h2 : x < 2 ^ (n + 1) := (bitLength_le_iff x (n + 1)).1 (by omega)
  rw [Nat.testBit_to_div_mod]
  have : x / 2 ^ n = 1 := by
    apply Nat.div_eq_of_lt_le
    · simpa using h1
    · rw [pow_succ] at h2; omega
  simp [this]

theorem testBit_eq_false_of_bitLength_le {x i : Nat} (h : bitLength x ≤ i) :
    x.testBit i = false :=
  Nat.testBit_lt_two_pow ((bitLength_le_iff x i).1 h)

/-- XOR with a shorter number keeps the bit length. -/
theorem bitLength_xor_of_lt {a b : Nat} (h : bitLength b < bitLength a) :
    bitLength (a ^^^ b) = bitLength a := by
  obtain ⟨n, hn⟩ : ∃ n, bitLength a = n + 1 := ⟨bitLength a - 1, by omega⟩
  have ha : a < 2 ^ (n + 1) := (bitLength_le_iff a _).1 (by omega)
  have hb : b < 2 ^ n := (bitLength_le_iff b _).1 (by omega)
  have hb' : b < 2 ^ (n + 1) := lt_of_lt_of_le hb (Nat.pow_le_pow_right (by decide) (by omega))
  have h1 : a ^^^ b < 2 ^ (n + 1) := Nat.xor_lt_two_pow ha hb'
  have h2 : (a ^^^ b).testBit n = true := by
    rw [Nat.testBit_xor, testBit_top hn, Nat.testBit_lt_two_pow hb]; rfl
  have h3 : 2 ^ n ≤ a ^^^ b := Nat.testBit_implies_ge h2
  have h4 := (bitLength_le_iff (a ^^^ b) (n + 1)).2 h1
  have h5 := (lt_bitLength_iff (a ^^^ b) n).2 h3
  omega

/-! ### One round of the division loop -/

/-- The body of the loop XORs the generator, shifted to the leading digit,
into the dividend. -/
theorem loop_body_eq (x gen s : Nat) :
    (x &&& ((1 <<< s) - 1)) ||| (((x >>> s) ^^^ gen) <<< s) = x ^^^ (gen <<< s) := by
  apply Nat.eq_of_testBit_eq
  intro i
  rw [Nat.one_shiftLeft]
  simp only [Nat.testBit_or, Nat.testBit_and, Nat.testBit_two_pow_sub_one,
    Nat.testBit_shiftLeft, Nat.testBit_xor, Nat.testBit_shiftRight]
  by_cases his : i < s
  · have : ¬ (i ≥ s) := by omega
    simp [his, this]
  · have h2 : i ≥ s := by omega
    have h3 : s + (i - s) = i := by omega
    simp [his, h2, h3]

/-- XOR-ing the aligned generator removes the leading digit. -/
theorem bitLength_step_lt {gen L x : Nat} (hL : 1 ≤ L) (hgen : bitLength gen = L)
    (hx : L ≤ bitLength x) :
    bitLength (x ^^^ (gen <<< (bitLength x - L))) < bitLength x := by
  obtain ⟨n, hn⟩ : ∃ n, bitLength x = n + 1 := ⟨bitLength x - 1, by omega⟩
  obtain ⟨l, hl⟩ : ∃ l, L = l + 1 := ⟨L - 1, by omega⟩
  subst hl
  have hs : bitLength x - (l + 1) = n - l := by omega
  have hln : l ≤ n := by omega
  rw [hs]
  have hlt : x ^^^ (gen <<< (n - l)) < 2 ^ n := by
    apply Nat.lt_pow_two_of_testBit
    intro i hi
    rw [Nat.testBit_xor, Nat.testBit_shiftLeft]
    rcases Nat.eq_or_lt_of_le hi with h | h
    · subst h
      have hge : n ≥ n - l := by omega
      have hidx : n - (n - l) = l := by omega
      rw [testBit_top hn, hidx, testBit_top hgen]
      simp [hge]
    · have e1 : x.testBit i = false := testBit_eq_false_of_bitLength_le (by omega)
      have e2 : gen.testBit (i - (n - l)) = false :=
        testBit_eq_false_of_bitLength_le (by omega)
      simp [e1, e2]
  have := (bitLength_le_iff _ n).2 hlt
  omega

/-! ### The division loop as a relation -/

theorem reduces_bitLength_lt {gen L x r : Nat} (h : Reduces gen L x r) : bitLength r < L := by
  induction h with
  | done x hx => exact hx
  | step x r _ _ ih => exact ih

theorem reduces_unique {gen L x r r' : Nat} (h : Reduces gen L x r) (h' : Reduces gen L x r') :
    r = r' := by
  induction h with
  | done x hx =>
    cases h' with
    | done _ _ => rfl
    | step _ _ hx' _ => omega
  | step x r hx _ ih =>
    cases h' with
    | done _ hx' => omega
    | step _ _ _ hr' => exact ih hr'

theorem reduces_exists {gen L : Nat} (hL : 1 ≤ L) (hgen : bitLength gen = L) :
    ∀ n x : Nat, bitLength x ≤ n → ∃ r, Reduces gen L x r := by
  intro n
  induction n with
  | zero =>
    intro x hx
    exact ⟨x, Reduces.done x (by omega)⟩
  | succ n ih =>
    intro x hx
    by_cases hlt : bitLength x < L
    · exact ⟨x, Reduces.done x hlt⟩
    · have hle : L ≤ bitLength x := by omega
      have hdec := bitLength_step_lt hL hgen hle
      obtain ⟨r, hr⟩ := ih (x ^^^ (gen <<< (bitLength x - L))) (by omega)
      exact ⟨r, Reduces.step x r hle hr⟩

/-- With fuel for one round per binary digit the loop of `CRC` returns the
result of the reduction. -/
theorem crcLoop_of_reduces {gen L : Nat} (hL : 1 ≤ L) (hgen : bitLength gen = L)
    {x r : Nat} (h : Reduces gen L x r) :
    ∀ fuel : Nat, bitLength x ≤ fuel →
      crcLoop gen L fuel x ((bitLength x : Int) - (L : Int)) = some r := by
  induction h with
  | done x hx =>
    intro fuel _
    have h1 : ¬ (x ≥ gen) := by
      have ha := lt_two_pow_bitLength x
      have hb : 2 ^ bitLength x ≤ gen :=
        (lt_bitLength_iff gen (bitLength x)).1 (by omega)
      omega
    have h2 : ¬ ((bitLength x : Int) - (L : Int) ≥ 0) := by omega
    unfold crcLoop
    simp [h1, h2]
  | step x r hx _ ih =>
    intro fuel hfuel
    have hdec := bitLength_step_lt hL hgen hx
    obtain ⟨fuel', rfl⟩ : ∃ f, fuel = f + 1 := ⟨fuel - 1, by omega⟩
    have h2 : (bitLength x : Int) - (L : Int) ≥ 0 := by omega
    have h3 : ¬ ((bitLength x : Int) - (L : Int) < 0) := by omega
    have h4 : ((bitLength x : Int) - (L : Int)).toNat = bitLength x - L := by omega
    unfold crcLoop
    simp only [h2, or_true, if_true, h3, if_false, h4, loop_body_eq]
    exact ih fuel' (by omega)

/-- The reduction is additive for XOR. -/
theorem reduces_xor {gen L : Nat} (hL : 1 ≤ L) (hgen : bitLength gen = L)
    {a ra : Nat} (ha : Reduces gen L a ra) :
    ∀ {b rb : Nat}, Reduces gen L b rb → Reduces gen L (a ^^^ b) (ra ^^^ rb) := by
  induction ha with
  | done a hxa =>
    intro b rb hb
    induction hb with
    | done b hxb =>
      apply Reduces.done
      have h1 := (bitLength_le_iff a (L - 1)).1 (by omega)
      have h2 := (bitLength_le_iff b (L - 1)).1 (by omega)
      have := (bitLength_le_iff (a ^^^ b) (L - 1)).2 (Nat.xor_lt_two_pow h1 h2)
      omega
    | step b rb hxb _ ihb =>
      have hlen : bitLength (a ^^^ b) = bitLength b := by
        rw [Nat.xor_comm]; exact bitLength_xor_of_lt (by omega)
      apply Reduces.step _ _ (by omega)
      rw [hlen, Nat.xor_assoc]
      exact ihb
  | step a ra hxa hra iha =>
    intro b rb hb
    induction hb with
    | done b hxb =>
      have hlen : bitLength (a ^^^ b) = bitLength a := bitLength_xor_of_lt (by omega)
      apply Reduces.step _ _ (by omega)
      rw [hlen, Nat.xor_assoc, Nat.xor_comm b, ← Nat.xor_assoc]
      exact iha (Reduces.done b hxb)
    | step b rb hxb hrb ihb =>
      rcases Nat.lt_trichotomy (bitLength a) (bitLength b) with hlt | heq | hgt
      · have hlen : bitLength (a ^^^ b) = bitLength b := by
          rw [Nat.xor_comm]; exact bitLength_xor_of_lt hlt
        apply Reduces.step _ _ (by omega)
        rw [hlen, Nat.xor_assoc]
        exact ihb
      · have key : (a ^^^ (gen <<< (bitLength a - L))) ^^^ (b ^^^ (gen <<< (bitLength b - L)))
            = a ^^^ b := by
          rw [heq]
          apply Nat.eq_of_testBit_eq
          intro i
          simp only [Nat.testBit_xor]
          cases a.testBit i <;> cases b.testBit i <;>
            cases (gen <<< (bitLength b - L)).testBit i <;> rfl
        have := iha hrb
        rw [key] at this
        exact this
      · have hlen : bitLength (a ^^^ b) = bitLength a := bitLength_xor_of_lt hgt
        apply Reduces.step _ _ (by omega)
        rw [hlen, Nat.xor_assoc, Nat.xor_comm b, ← Nat.xor_assoc]
        exact iha (Reduces.step b rb hxb hrb)

/-! ### `toDec` and `toBin` -/

theorem toDecLoop_eq (l : List Char) : ∀ acc : Nat, toDecLoop l acc = acc + toDec l := by
  induction l with
  | nil => intro acc; simp [toDec, toDecLoop]
  | cons c cs ih =>
    intro acc
    simp only [toDec, toDecLoop]
    rw [ih, ih (if c = '1' then 0 + 1 <<< cs.length else 0)]
    split <;> omega

theorem toDec_nil : toDec [] = 0 := rfl

theorem toDec_cons (c : Char) (cs : List Char) :
    toDec (c :: cs) = (if c = '1' then 2 ^ cs.length else 0) + toDec cs := by
  simp only [toDec, toDecLoop]
  rw [toDecLoop_eq, toDecLoop_eq cs 0, Nat.one_shiftLeft]
  split <;> omega

theorem toDec_lt (l : List Char) : toDec l < 2 ^ l.length := by
  induction l with
  | nil => simp [toDec_nil]
  | cons c cs ih =>
    rw [toDec_cons, List.length_cons, pow_succ]
    split <;> omega

theorem two_pow_add_eq_xor {n t : Nat} (h : t < 2 ^ n) : 2 ^ n + t = 2 ^ n ^^^ t := by
  have h1 : 2 ^ n + t = 2 ^ n ||| t := by
    have := Nat.mul_add_lt_is_or h 1
    simpa using this
  rw [h1]
  apply Nat.eq_of_testBit_eq
  intro i
  rw [Nat.testBit_or, Nat.testBit_xor, Nat.testBit_two_pow]
  by_cases hi : n = i
  · subst hi; simp [Nat.testBit_lt_two_pow h]
  · simp [hi]

theorem toDec_cons_xor (c : Char) (cs : List Char) :
    toDec (c :: cs) = (if c = '1' then 2 ^ cs.length else 0) ^^^ toDec cs := by
  rw [toDec_cons]
  split
  · exact two_pow_add_eq_xor (toDec_lt cs)
  · simp

theorem toDec_append (a b : List Char) :
    toDec (a ++ b) = toDec a * 2 ^ b.length + toDec b := by
  induction a with
  | nil => simp [toDec_nil]
  | cons c cs ih =>
    rw [List.cons_append, toDec_cons, toDec_cons, ih, List.length_append, pow_add]
    split
    · rw [Nat.add_mul]; omega
    · rw [Nat.zero_add, Nat.zero_add]

theorem toDec_reverse_toBinDigits (fuel : Nat) : ∀ n : Nat, n ≤ fuel →
    toDec (toBinDigits fuel n).reverse = n := by
  induction fuel with
  | zero =>
    intro n hn
    have : n = 0 := by omega
    subst this
    simp [toBinDigits, toDec_nil]
  | succ fuel ih =>
    intro n hn
    unfold toBinDigits
    by_cases h0 : n = 0
    · subst h0; simp [toDec_nil]
    · rw [if_neg h0, List.reverse_cons, toDec_append, Nat.shiftRight_succ, Nat.shiftRight_zero,
        ih (n / 2) (by omega), toDec_cons, toDec_nil, Nat.and_one_is_mod]
      have hm : n % 2 = 0 ∨ n % 2 = 1 := by omega
      rcases hm with hm | hm <;> simp [hm] <;> omega

/-- `toDec` reads back what `toBin` writes. -/
theorem toDec_toBin (n : Nat) : toDec (toBin n) = n :=
  toDec_reverse_toBinDigits n n (Nat.le_refl n)

theorem length_toBinDigits (fuel : Nat) : ∀ n : Nat,
    (toBinDigits fuel n).length = bitLengthAux fuel n := by
  induction fuel with
  | zero => intro n; simp [toBinDigits, bitLengthAux]
  | succ fuel ih =>
    intro n
    unfold toBinDigits bitLengthAux
    by_cases h0 : n = 0
    · simp [h0]
    · rw [if_neg h0, if_neg h0, List.length_cons, ih, Nat.shiftRight_succ, Nat.shiftRight_zero]

/-- The string `toBin` writes has one character per binary digit: no
leading zero is written. -/
theorem length_toBin (n : Nat) : (toBin n).length = bitLength n := by
  simp [toBin, length_toBinDigits, bitLength]

theorem length_flipBit (w : List Char) (k : Nat) : (flipBit w k).length = w.length := by
  simp [flipBit]

/-- Flipping the character at index `k` flips the binary digit of weight
`2 ^ (len - 1 - k)`. -/
theorem toDec_flipBit : ∀ (w : List Char) (k : Nat), k < w.length →
    toDec (flipBit w k) = toDec w ^^^ 2 ^ (w.length - 1 - k) := by
  intro w
  induction w with
  | nil => intro k hk; simp at hk
  | cons c cs ih =>
    intro k hk
    cases k with
    | zero =>
      simp only [flipBit, List.getD_cons_zero, List.set_cons_zero, List.length_cons]
      rw [toDec_cons_xor, toDec_cons_xor]
      have : cs.length + 1 - 1 - 0 = cs.length := by omega
      rw [this]
      by_cases hc : c = '1'
      · simp only [hc, if_true]
        have h01 : ¬ ('0' = '1') := by decide
        rw [if_neg h01, Nat.xor_comm (2 ^ cs.length), Nat.xor_assoc, Nat.xor_self]
        simp
      · simp only [hc, if_false, if_true]
        rw [Nat.xor_comm]
        simp
    | succ k =>
      have hk' : k < cs.length := by simpa using hk
      have hflip : flipBit (c :: cs) (k + 1) = c :: flipBit cs k := by
        simp [flipBit]
      rw [hflip, toDec_cons_xor, toDec_cons_xor, ih k hk', length_flipBit, Nat.xor_assoc]
      have : (c :: cs).length - 1 - (k + 1) = cs.length - 1 - k := by
        simp only [List.length_cons]; omega
      rw [this]

/-- A generator that starts with `'1'` has as many binary digits as
characters. -/
theorem bitLength_toDec_of_head {g : List Char} (h1 : g.head? = some '1') :
    bitLength (toDec g) = g.length := by
  cases g with
  | nil => simp at h1
  | cons c cs =>
    have hc : c = '1' := by simpa using h1
    subst hc
    have hlt := toDec_lt ('1' :: cs)
    have hge : 2 ^ cs.length ≤ toDec ('1' :: cs) := by
      rw [toDec_cons]; simp
    have a := (bitLength_le_iff _ _).2 hlt
    have b := (lt_bitLength_iff _ _).2 hge
    simp only [List.length_cons] at a ⊢
    omega

/-! ### The routine `CRC` -/

theorem shiftLeft_lt_two_pow {a m : Nat} (h : a < 2 ^ m) (s : Nat) : a <<< s < 2 ^ (m + s) := by
  rw [Nat.shiftLeft_eq, pow_add]
  exact Nat.mul_lt_mul_of_pos_right h (Nat.two_pow_pos s)

theorem shiftLeft_or_eq_xor {a r s : Nat} (hr : r < 2 ^ s) : a <<< s ||| r = a <<< s ^^^ r := by
  apply Nat.eq_of_testBit_eq
  intro i
  rw [Nat.testBit_or, Nat.testBit_xor, Nat.testBit_shiftLeft]
  by_cases hi : i < s
  · have : ¬ (i ≥ s) := by omega
    simp [this]
  · have hri : r.testBit i = false :=
      Nat.testBit_lt_two_pow (lt_of_lt_of_le hr (Nat.pow_le_pow_right (by decide) (by omega)))
    simp [hri]

/-- What a call of `CRC` computes when the generator starts with `'1'`: the
loop ends with a remainder `r` of fewer than `len(g)` digits, and the
codeword buffer holds `toBin` of the shifted dataword with `r` in its low
digits, a word the reduction takes to zero. -/
theorem crc_run (d g : List Char) (hL : 1 ≤ g.length) (h1 : g.head? = some '1')
    (fuel : Nat) (hfuel : d.length + g.length ≤ fuel + 1) :
    ∃ r, r < 2 ^ (g.length - 1) ∧
      CRC fuel d g = some (toBin (toDec d <<< (g.length - 1) ^^^ r),
        if d.length ≤ (toBin (toDec d <<< (g.length - 1) ^^^ r)).length then
          some ((toBin (toDec d <<< (g.length - 1) ^^^ r)).drop d.length)
        else none) ∧
      Reduces (toDec g) g.length (toDec d <<< (g.length - 1)) r ∧
      Reduces (toDec g) g.length (toDec d <<< (g.length - 1) ^^^ r) 0 ∧
      toDec d <<< (g.length - 1) ^^^ r < 2 ^ (d.length + (g.length - 1)) := by
  have hgen := bitLength_toDec_of_head h1
  have hD : toDec d <<< (g.length - 1) < 2 ^ (d.length + (g.length - 1)) :=
    shiftLeft_lt_two_pow (toDec_lt d) _
  have hDlen := (bitLength_le_iff _ _).2 hD
  obtain ⟨r, hr⟩ := reduces_exists hL hgen _ _ (Nat.le_refl (bitLength (toDec d <<< (g.length - 1))))
  have hrlt : r < 2 ^ (g.length - 1) :=
    (bitLength_le_iff r _).1 (by have := reduces_bitLength_lt hr; omega)
  have hloop := crcLoop_of_reduces hL hgen hr fuel (by omega)
  have hzero : Reduces (toDec g) g.length (toDec d <<< (g.length - 1) ^^^ r) 0 := by
    have := reduces_xor hL hgen hr (Reduces.done r (reduces_bitLength_lt hr))
    simpa using this
  have hcw : toDec d <<< (g.length - 1) ^^^ r < 2 ^ (d.length + (g.length - 1)) :=
    Nat.xor_lt_two_pow hD
      (lt_of_lt_of_le hrlt (Nat.pow_le_pow_right (by decide) (by omega)))
  refine ⟨r, hrlt, ?_, hr, hzero, hcw⟩
  simp only [CRC, crcRemainder, hloop, shiftLeft_or_eq_xor hrlt]

/-- The division of `CRC`, run on a received word the reduction takes to `e`,
returns `e`. -/
theorem crcRemainder_of_reduces {g w : List Char} (hL : 1 ≤ g.length) (h1 : g.head? = some '1')
    {e : Nat} (h : Reduces (toDec g) g.length (toDec w) e) (fuel : Nat)
    (hfuel : bitLength (toDec w) ≤ fuel) :
    crcRemainder fuel (toDec w) g = some e := by
  have hgen := bitLength_toDec_of_head h1
  simp only [crcRemainder, crcLoop_of_reduces hL hgen h fuel hfuel]

/-- Claim C1: for every dataword `d` and every generator `g` of at least two
characters whose first character is `'1'` (lengths within the range of the
source's 32-bit `int`: no string that `toDec` reads is longer than 31
characters), `CRC` returns, and the codeword it leaves in `cw` is a valid
codeword: the division loop of `CRC`, re-run on that codeword with the same
generator, ends with remainder zero, which is the verdict `true` of
`verify`. -/
theorem crc_codeword_verifies (d g : List Char) (hg : 2 ≤ g.length)
    (h1 : g.head? = some '1') (_hlen : g.length ≤ 31 ∧ d.length + g.length ≤ 32)
    (fuel : Nat) (hfuel : d.length + g.length ≤ fuel) :
    ∃ cw rm, CRC fuel d g = some (cw, rm) ∧ crcRemainder fuel (toDec cw) g = some 0 := by
  obtain ⟨r, _, hcrc, _, hzero, hlt⟩ := crc_run d g (by omega) h1 fuel (by omega)
  refine ⟨_, _, hcrc, ?_⟩
  have hz : Reduces (toDec g) g.length
      (toDec (toBin (toDec d <<< (g.length - 1) ^^^ r))) 0 := by
    rw [toDec_toBin]; exact hzero
  have hb : bitLength (toDec (toBin (toDec d <<< (g.length - 1) ^^^ r))) ≤ fuel := by
    rw [toDec_toBin]
    have := (bitLength_le_iff _ _).2 hlt
    omega
  exact crcRemainder_of_reduces (by omega) h1 hz fuel hb

/-- The worked example of the specification: dataword `1101011011` and
generator `10011` give the codeword `11010110111110`, which divides evenly. -/
theorem crc_codeword_verifies_witness :
    (∃ cw rm, CRC 15 "1101011011".toList "10011".toList = some (cw, rm) ∧
      crcRemainder 15 (toDec cw) "10011".toList = some 0) ∧
    CRC 15 "1101011011".toList "10011".toList
      = some ("11010110111110".toList, some "1110".toList) :=
  ⟨crc_codeword_verifies "1101011011".toList "10011".toList (by decide) (by decide)
    (by decide) 15 (by decide), by decide⟩

/-! ### Single-bit errors -/

theorem toDec_pos_of_mem {l : List Char} (h : '1' ∈ l) : 0 < toDec l := by
  induction l with
  | nil => simp at h
  | cons c cs ih =>
    rw [toDec_cons]
    by_cases hc : c = '1'
    · simp [hc]
    · have : '1' ∈ cs := by
        rcases List.mem_cons.1 h with h | h
        · exact absurd h.symm hc
        · exact h
      have := ih this
      omega

/-- A generator that starts with `'1'` and holds a second `'1'` has a lowest
set digit below its leading digit. -/
theorem exists_low_bit {g : List Char} (h1 : g.head? = some '1') (h2 : 2 ≤ g.count '1') :
    ∃ t, t + 2 ≤ g.length ∧ (toDec g).testBit t = true ∧
      ∀ k, k < t → (toDec g).testBit k = false := by
  cases g with
  | nil => simp at h1
  | cons c cs =>
    have hc : c = '1' := by simpa using h1
    subst hc
    have hcount : 1 ≤ cs.count '1' := by
      rw [List.count_cons_self] at h2; omega
    have hmem : '1' ∈ cs := List.count_pos_iff.1 (by omega)
    have hpos := toDec_pos_of_mem hmem
    have hex : ∃ i, (toDec cs).testBit i = true :=
      Nat.ne_zero_implies_bit_true (by omega)
    have hbit : ∀ k, k < cs.length →
        (toDec ('1' :: cs)).testBit k = (toDec cs).testBit k := by
      intro k hk
      rw [toDec_cons_xor, if_pos rfl, Nat.testBit_xor, Nat.testBit_two_pow]
      have : ¬ (cs.length = k) := by omega
      simp [this]
    have htlt : Nat.find hex < cs.length := by
      by_contra hge
      have hlt : toDec cs < 2 ^ Nat.find hex :=
        lt_of_lt_of_le (toDec_lt cs) (Nat.pow_le_pow_right (by decide) (by omega))
      have := Nat.testBit_lt_two_pow hlt
      rw [Nat.find_spec hex] at this
      exact Bool.noConfusion this
    refine ⟨Nat.find hex, by simp only [List.length_cons]; omega, ?_, ?_⟩
    · rw [hbit _ htlt]; exact Nat.find_spec hex
    · intro k hk
      rw [hbit k (by omega)]
      have := Nat.find_min hex hk
      simpa using this

/-- A word whose lowest set digit is close enough to its leading digit is
never reduced to zero by a generator with two set digits. -/
theorem reduces_ne_zero {gen L t : Nat} (hL : 1 ≤ L) (hgen : bitLength gen = L)
    (hbit : gen.testBit t = true) (hlow : ∀ k, k < t → gen.testBit k = false)
    {x r : Nat} (h : Reduces gen L x r) :
    (∃ l, x.testBit l = true ∧ (∀ k, k < l → x.testBit k = false) ∧
      bitLength x + t + 1 ≤ l + L) → r ≠ 0 := by
  induction h with
  | done x _ =>
    rintro ⟨l, hl, _, _⟩ h0
    rw [h0] at hl
    simp at hl
  | step x r hx _ ih =>
    rintro ⟨l, hl, hmin, hbound⟩
    apply ih
    have hdec := bitLength_step_lt hL hgen hx
    refine ⟨bitLength x - L + t, ?_, ?_, by omega⟩
    · rw [Nat.testBit_xor, Nat.testBit_shiftLeft, hmin _ (by omega)]
      have h1 : bitLength x - L + t ≥ bitLength x - L := by omega
      have h2 : bitLength x - L + t - (bitLength x - L) = t := by omega
      simp [h1, h2, hbit]
    · intro k hk
      rw [Nat.testBit_xor, Nat.testBit_shiftLeft, hmin _ (by omega)]
      by_cases hks : k ≥ bitLength x - L
      · have := hlow (k - (bitLength x - L)) (by omega)
        simp [hks, this]
      · simp [hks]

theorem bitLength_two_pow (j : Nat) : bitLength (2 ^ j) = j + 1 := by
  have a := (bitLength_le_iff (2 ^ j) (j + 1)).2 (Nat.pow_lt_pow_right (by decide) (by omega))
  have b := (lt_bitLength_iff (2 ^ j) j).2 (Nat.le_refl _)
  omega

/-- Claim C2, evaluated at a dataword with a leading zero: for dataword `01`
and generator `11` the remainder of the division is `1`, so the codeword of
the claim is `011` and its remainder string `1`; `CRC` leaves the two-character
codeword `11` (`toBin` writes no leading zero) and, copying from offset
`strlen(dataword) = 2`, an empty remainder string. -/
theorem crc_leading_zero_dataword :
    CRC 4 "01".toList "11".toList = some ("11".toList, some []) ∧
      crcRemainder 4 (toDec "01".toList <<< 1) "11".toList = some 1 := by
  decide

/-- Claim C8 as stated fails for a generator with a single `'1'`: for dataword
`1` and generator `10` the codeword is `10`; flipping its first bit gives
`00`, on which the division loop still ends with remainder zero, so `verify`
returns true. -/
theorem crc_single_bit_error_undetected :
    CRC 4 "1".toList "10".toList = some ("10".toList, some "0".toList) ∧
      flipBit "10".toList 0 = "00".toList ∧
      crcRemainder 4 (toDec (flipBit "10".toList 0)) "10".toList = some 0 := by
  decide

/-- Claim C8, amended: for every dataword `d` and every generator `g` of at
least two characters whose first character is `'1'` and which holds at least
one more `'1'` (lengths within the range of the source's 32-bit `int`),
flipping any single bit of the codeword `CRC` emits gives a word that
`verify` rejects: the division loop of `CRC`, run on the received word with
`g`, returns a remainder that is not zero. -/
theorem crc_single_bit_error_detected (d g : List Char) (hg : 2 ≤ g.length)
    (h1 : g.head? = some '1') (h2 : 2 ≤ g.count '1')
    (_hlen : g.length ≤ 31 ∧ d.length + g.length ≤ 32)
    (fuel : Nat) (hfuel : d.length + g.length ≤ fuel) :
    ∃ cw rm, CRC fuel d g = some (cw, rm) ∧
      ∀ k, k < cw.length →
        ∃ e, crcRemainder fuel (toDec (flipBit cw k)) g = some e ∧ e ≠ 0 := by
  have hL : 1 ≤ g.length := by omega
  have hgen := bitLength_toDec_of_head h1
  obtain ⟨r, _, hcrc, _, hzero, hlt⟩ := crc_run d g hL h1 fuel (by omega)
  obtain ⟨t, ht, htbit, htlow⟩ := exists_low_bit h1 h2
  refine ⟨_, _, hcrc, ?_⟩
  intro k hk
  have hcwlen : (toBin (toDec d <<< (g.length - 1) ^^^ r)).length ≤ fuel := by
    rw [length_toBin]
    have := (bitLength_le_iff _ _).2 hlt
    omega
  obtain ⟨e, he⟩ := reduces_exists hL hgen _
    (2 ^ ((toBin (toDec d <<< (g.length - 1) ^^^ r)).length - 1 - k)) (Nat.le_refl _)
  have hne : e ≠ 0 := by
    apply reduces_ne_zero hL hgen htbit htlow he
    refine ⟨_, Nat.testBit_two_pow_self, ?_, ?_⟩
    · intro i hi
      exact Nat.testBit_two_pow_of_ne (by omega)
    · rw [bitLength_two_pow]; omega
  have hred : Reduces (toDec g) g.length
      (toDec (flipBit (toBin (toDec d <<< (g.length - 1) ^^^ r)) k)) e := by
    rw [toDec_flipBit _ _ hk, toDec_toBin]
    have := reduces_xor hL hgen hzero he
    simpa using this
  have hb : bitLength (toDec (flipBit (toBin (toDec d <<< (g.length - 1) ^^^ r)) k)) ≤ fuel := by
    have h := toDec_lt (flipBit (toBin (toDec d <<< (g.length - 1) ^^^ r)) k)
    rw [length_flipBit] at h
    have := (bitLength_le_iff _ _).2 h
    omega
  exact ⟨e, crcRemainder_of_reduces hL h1 hred fuel hb, hne⟩

/-- The worked example of the specification: every single-bit flip of the
codeword for dataword `1101011011` and generator `10011` leaves a non-zero
remainder; flipping the last bit of `11010110111110` leaves remainder 1. -/
theorem crc_single_bit_error_detected_witness :
    (∃ cw rm, CRC 15 "1101011011".toList "10011".toList = some (cw, rm) ∧
      ∀ k, k < cw.length →
        ∃ e, crcRemainder 15 (toDec (flipBit cw k)) "10011".toList = some e ∧ e ≠ 0) ∧
    crcRemainder 15 (toDec (flipBit "11010110111110".toList 13)) "10011".toList = some 1 :=
  ⟨crc_single_bit_error_detected "1101011011".toList "10011".toList (by decide) (by decide)
    (by decide) (by decide) 15 (by decide), by decide⟩

/-! ### The shape of the codeword for a dataword that starts with `'1'` -/

theorem toBinDigits_binary (fuel : Nat) : ∀ n c, c ∈ toBinDigits fuel n → c = '0' ∨ c = '1' := by
  induction fuel with
  | zero => intro n c h; simp [toBinDigits] at h
  | succ fuel ih =>
    intro n c h
    unfold toBinDigits at h
    by_cases h0 : n = 0
    · simp [h0] at h
    · rw [if_neg h0] at h
      rcases List.mem_cons.1 h with h | h
      · rw [h]; split
        · exact Or.inr rfl
        · exact Or.inl rfl
      · exact ih _ c h

theorem toBin_binary (n : Nat) : ∀ c, c ∈ toBin n → c = '0' ∨ c = '1' := by
  intro c h
  exact toBinDigits_binary n n c (List.mem_reverse.1 h)

/-- Two strings over `'0'`/`'1'` of the same length that `toDec` reads as the
same number are the same string. -/
theorem toDec_injective : ∀ a b : List Char, a.length = b.length →
    (∀ c, c ∈ a → c = '0' ∨ c = '1') → (∀ c, c ∈ b → c = '0' ∨ c = '1') →
    toDec a = toDec b → a = b := by
  intro a
  induction a with
  | nil =>
    intro b hlen _ _ _
    cases b with
    | nil => rfl
    | cons _ _ => simp at hlen
  | cons x xs ih =>
    intro b hlen ha hb heq
    cases b with
    | nil => simp at hlen
    | cons y ys =>
      have hl : xs.length = ys.length := by simpa using hlen
      rw [toDec_cons, toDec_cons, hl] at heq
      have h1 := toDec_lt xs
      have h2 := toDec_lt ys
      rw [hl] at h1
      have h01 : ¬ ('0' : Char) = '1' := by decide
      have hx := ha x (List.mem_cons_self x xs)
      have hy := hb y (List.mem_cons_self y ys)
      have hxy : x = y ∧ toDec xs = toDec ys := by
        rcases hx with hx | hx <;> rcases hy with hy | hy <;> subst hx <;> subst hy <;>
          simp only [h01, if_false, if_true] at heq <;>
          first | exact ⟨rfl, by omega⟩ | (exfalso; omega)
      rw [hxy.1, ih ys hl (fun c hc => ha c (List.mem_cons_of_mem x hc))
        (fun c hc => hb c (List.mem_cons_of_mem y hc)) hxy.2]

/-- A string over `'0'`/`'1'` of `m + k` characters that spells
`toDec d * 2 ^ k + r` with `r < 2 ^ k`, for `d` of `m` characters, is `d`
followed by `k` characters that spell `r`. -/
theorem split_codeword (d cw : List Char) (k r : Nat) (hr : r < 2 ^ k)
    (hlen : cw.length = d.length + k) (hval : toDec cw = toDec d * 2 ^ k + r)
    (hbits : ∀ c, c ∈ d → c = '0' ∨ c = '1') (hcw : ∀ c, c ∈ cw → c = '0' ∨ c = '1') :
    cw = d ++ cw.drop d.length ∧ (cw.drop d.length).length = k ∧
      toDec (cw.drop d.length) = r := by
  have hsplit := List.take_append_drop d.length cw
  have htl : (cw.take d.length).length = d.length := by
    rw [List.length_take, hlen]; omega
  have hdl : (cw.drop d.length).length = k := by
    rw [List.length_drop, hlen]; omega
  have hlow := toDec_lt (cw.drop d.length)
  rw [hdl] at hlow
  have hpos : 0 < 2 ^ k := Nat.two_pow_pos _
  have hv : toDec (cw.take d.length) * 2 ^ k + toDec (cw.drop d.length)
      = toDec d * 2 ^ k + r := by
    rw [← hval, ← hdl, ← toDec_append, hsplit]
  have hhi : toDec (cw.take d.length) = toDec d := by
    have e1 := congrArg (fun x => x / 2 ^ k) hv
    simp only at e1
    rw [Nat.mul_comm _ (2 ^ k), Nat.mul_comm (toDec d) (2 ^ k),
      Nat.mul_add_div hpos, Nat.mul_add_div hpos, Nat.div_eq_of_lt hlow,
      Nat.div_eq_of_lt hr] at e1
    simpa using e1
  have hlo : toDec (cw.drop d.length) = r := by
    rw [hhi] at hv
    omega
  have htake : cw.take d.length = d :=
    toDec_injective _ _ htl (fun c hc => hcw c (List.mem_of_mem_take hc)) hbits hhi
  refine ⟨?_, hdl, hlo⟩
  conv_lhs => rw [← hsplit, htake]

/-- For a dataword over `'0'`/`'1'` that starts with `'1'` (and a generator
that starts with `'1'`), `CRC` emits the dataword followed by `len(g) - 1`
remainder characters: the codeword has `m + len(g) - 1` characters, the
remainder string is its last `len(g) - 1` characters, and these spell the
remainder the division loop leaves for the shifted dataword, padded with
zeros on the left. -/
theorem crc_codeword_shape (d g : List Char) (hg : 2 ≤ g.length)
    (hd1 : d.head? = some '1') (hbits : ∀ c, c ∈ d → c = '0' ∨ c = '1')
    (h1 : g.head? = some '1') (_hlen : g.length ≤ 31 ∧ d.length + g.length ≤ 32)
    (fuel : Nat) (hfuel : d.length + g.length ≤ fuel) :
    ∃ rm, CRC fuel d g = some (d ++ rm, some rm) ∧ rm.length = g.length - 1 ∧
      (∀ c, c ∈ rm → c = '0' ∨ c = '1') ∧
      crcRemainder fuel (toDec d <<< (g.length - 1)) g = some (toDec rm) := by
  have hL : 1 ≤ g.length := by omega
  have hgen := bitLength_toDec_of_head h1
  obtain ⟨r, hrlt, hcrc, hred, _, hlt⟩ := crc_run d g hL h1 fuel (by omega)
  have hdlen := bitLength_toDec_of_head hd1
  have hdpos : 1 ≤ d.length := by
    cases d with
    | nil => simp at hd1
    | cons _ _ => simp
  have hN : toDec d <<< (g.length - 1) ^^^ r = toDec d * 2 ^ (g.length - 1) + r := by
    rw [← shiftLeft_or_eq_xor hrlt, Nat.shiftLeft_eq, Nat.mul_comm]
    exact (Nat.mul_add_lt_is_or hrlt _).symm
  have hdge : 2 ^ (d.length - 1) ≤ toDec d := (lt_bitLength_iff _ _).1 (by omega)
  have hNge : 2 ^ (d.length - 1 + (g.length - 1)) ≤ toDec d <<< (g.length - 1) ^^^ r := by
    rw [hN, pow_add]
    have := Nat.mul_le_mul_right (2 ^ (g.length - 1)) hdge
    omega
  have hbl : bitLength (toDec d <<< (g.length - 1) ^^^ r) = d.length + (g.length - 1) := by
    have a := (bitLength_le_iff _ _).2 hlt
    have b := (lt_bitLength_iff _ _).2 hNge
    omega
  have hcwlen : (toBin (toDec d <<< (g.length - 1) ^^^ r)).length
      = d.length + (g.length - 1) := by rw [length_toBin, hbl]
  have hval : toDec (toBin (toDec d <<< (g.length - 1) ^^^ r))
      = toDec d * 2 ^ (g.length - 1) + r := by rw [toDec_toBin, hN]
  obtain ⟨hcw, hdl, hlo⟩ := split_codeword d _ (g.length - 1) r hrlt hcwlen hval hbits
    (toBin_binary _)
  refine ⟨(toBin (toDec d <<< (g.length - 1) ^^^ r)).drop d.length, ?_, hdl,
    fun c hc => toBin_binary _ c (List.mem_of_mem_drop hc), ?_⟩
  · rw [hcrc, if_pos (by omega), ← hcw]
  · rw [hlo]
    simp only [crcRemainder]
    exact crcLoop_of_reduces hL hgen hred fuel (by
      have := (bitLength_le_iff _ _).2
        (shiftLeft_lt_two_pow (toDec_lt d) (g.length - 1))
      omega)

/-- The worked example of the specification: dataword `1101011011` and
generator `10011` give codeword `11010110111110` and remainder `1110`. -/
theorem crc_codeword_shape_witness :
    (∃ rm, CRC 15 "1101011011".toList "10011".toList
        = some ("1101011011".toList ++ rm, some rm) ∧ rm.length = 5 - 1 ∧
      (∀ c, c ∈ rm → c = '0' ∨ c = '1') ∧
      crcRemainder 15 (toDec "1101011011".toList <<< (5 - 1)) "10011".toList
        = some (toDec rm)) ∧
    CRC 15 "1101011011".toList "10011".toList
      = some ("11010110111110".toList, some "1110".toList) :=
  ⟨crc_codeword_shape "1101011011".toList "10011".toList (by decide) (by decide) (by decide)
    (by decide) (by decide) 15 (by decide), by decide⟩

end UnixCrc

namespace UdpHamming

open UnixCrc (bitLength bitLength_le_iff lt_bitLength_iff lt_two_pow_bitLength bitLength_zero)

/-! ### The parity-count loop -/

theorem two_mul_le_two_pow {r : Nat} (h : 1 ≤ r) : 2 * r ≤ 2 ^ r := by
  obtain ⟨k, rfl⟩ : ∃ k, r = k + 1 := ⟨r - 1, by omega⟩
  have := Nat.lt_two_pow k
  rw [pow_succ]; omega

theorem parityCount_cond (n pc : Nat) :
    ((n : Int) > (2 : Int) ^ pc - ((pc : Int) + 1)) ↔ 2 ^ pc < n + pc + 1 := by
  have e : ((2 : Int) ^ pc) = ((2 ^ pc : Nat) : Int) := by push_cast; rfl
  rw [e]; omega

/-- From a count below which the inequality fails everywhere, the loop ends
at the least count for which it holds. -/
theorem parityCountLoop_spec (n : Nat) : ∀ fuel pc : Nat,
    (∀ r', r' < pc → 2 ^ r' < n + r' + 1) → n + 1 ≤ pc + fuel →
    ∃ r, parityCountLoop n fuel pc = some r ∧ n + r + 1 ≤ 2 ^ r ∧
      ∀ r', r' < r → 2 ^ r' < n + r' + 1 := by
  intro fuel
  induction fuel with
  | zero =>
    intro pc hbelow hfuel
    have h2 := two_mul_le_two_pow (r := pc) (by omega)
    refine ⟨pc, ?_, by omega, hbelow⟩
    unfold parityCountLoop
    rw [if_neg]
    rw [parityCount_cond]; omega
  | succ fuel ih =>
    intro pc hbelow hfuel
    by_cases hc : 2 ^ pc < n + pc + 1
    · obtain ⟨r, hr, hge, hmin⟩ := ih (pc + 1) (by
        intro r' hr'
        rcases Nat.lt_succ_iff_lt_or_eq.1 hr' with h | h
        · exact hbelow r' h
        · subst h; exact hc) (by omega)
      refine ⟨r, ?_, hge, hmin⟩
      unfold parityCountLoop
      rw [if_pos ((parityCount_cond n pc).2 hc)]
      exact hr
    · refine ⟨pc, ?_, by omega, hbelow⟩
      unfold parityCountLoop
      rw [if_neg]
      rw [parityCount_cond]; exact hc

/-- Claim C4: for every dataword length `m`, the parity-count loop of
`generateHammingCode`, given fuel for `m + 1` rounds, ends with the smallest
`r` such that `2 ^ r ≥ m + r + 1`; for `m = 4` this is `r = 3` and for
`m = 7` it is `r = 4`. -/
theorem parityCount_smallest (m fuel : Nat) (hfuel : m + 1 ≤ fuel) :
    ∃ r, parityCountLoop m fuel 0 = some r ∧ m + r + 1 ≤ 2 ^ r ∧
      (∀ r', r' < r → 2 ^ r' < m + r' + 1) ∧ (m = 4 → r = 3) ∧ (m = 7 → r = 4) := by
  obtain ⟨r, hr, hge, hmin⟩ := parityCountLoop_spec m fuel 0 (by intro r' h; omega) (by omega)
  refine ⟨r, hr, hge, hmin, ?_, ?_⟩
  · intro hm
    subst hm
    have h3 : r ≤ 3 := by
      by_contra hgt
      have := hmin 3 (by omega)
      norm_num at this
    interval_cases r <;> simp_all
  · intro hm
    subst hm
    have h4 : r ≤ 4 := by
      by_contra hgt
      have := hmin 4 (by omega)
      norm_num at this
    interval_cases r <;> simp_all

/-- The two examples of the specification: four data bits need three parity
bits and seven data bits need four. -/
theorem parityCount_smallest_witness :
    (∃ r, parityCountLoop 4 5 0 = some r ∧ 4 + r + 1 ≤ 2 ^ r ∧
      (∀ r', r' < r → 2 ^ r' < 4 + r' + 1) ∧ (4 = 4 → r = 3) ∧ (4 = 7 → r = 4)) ∧
    parityCountLoop 4 5 0 = some 3 ∧ parityCountLoop 7 8 0 = some 4 :=
  ⟨parityCount_smallest 4 5 (by decide), by decide, by decide⟩

/-! ### `calculateParity` -/

theorem groupCount_zero (c : Nat → Int) (p : Nat) : groupCount c p 0 = 0 := by
  simp [groupCount]

theorem groupCount_succ (c : Nat → Int) (p a : Nat) :
    groupCount c p (a + 1) =
      groupCount c p a + (if (a + 1) / p % 2 = 1 ∧ c a = 1 then 1 else 0) := by
  simp only [groupCount, List.range_succ, List.countP_append, List.countP_cons, List.countP_nil,
    Bool.and_eq_true, decide_eq_true_eq]
  simp

theorem groupCount_succ_of_mem {c : Nat → Int} {p a : Nat} (h : (a + 1) / p % 2 = 1) :
    groupCount c p (a + 1) = groupCount c p a + (if c a = 1 then 1 else 0) := by
  rw [groupCount_succ]; simp [h]

theorem groupCount_succ_of_not_mem {c : Nat → Int} {p a : Nat} (h : ¬ (a + 1) / p % 2 = 1) :
    groupCount c p (a + 1) = groupCount c p a := by
  rw [groupCount_succ]; simp [h]

theorem groupCount_eq_of_not_mem (c : Nat → Int) (p a : Nat) : ∀ b, a ≤ b →
    (∀ x, a ≤ x → x < b → ¬ (x + 1) / p % 2 = 1) → groupCount c p b = groupCount c p a := by
  intro b hab
  induction b, hab using Nat.le_induction with
  | base => intro _; rfl
  | succ b hb ih =>
    intro h
    rw [groupCount_succ_of_not_mem (h b hb (by omega))]
    exact ih (fun x hx hx' => h x hx (by omega))

theorem parityInnerLoop_spec (c : Nat → Int) (p L i : Nat)
    (hblock : ∀ x, i ≤ x → x < i + p → (x + 1) / p % 2 = 1) :
    ∀ fuel j count, i ≤ j → j ≤ min (i + p) L → min (i + p) L ≤ j + fuel →
      parityInnerLoop c i p L fuel j count + groupCount c p j
        = count + groupCount c p (min (i + p) L) := by
  intro fuel
  induction fuel with
  | zero =>
    intro j count _ h1 h2
    have : j = min (i + p) L := by omega
    simp [parityInnerLoop, this]
  | succ fuel ih =>
    intro j count hij h1 h2
    unfold parityInnerLoop
    by_cases hc : j < i + p ∧ j < L
    · rw [if_pos hc]
      have := ih (j + 1) (if c j = 1 then count + 1 else count) (by omega) (by omega) (by omega)
      rw [groupCount_succ_of_mem (hblock j hij hc.1)] at this
      by_cases hcj : c j = 1
      · simp only [hcj, if_true] at this ⊢
        omega
      · simp only [hcj, if_false] at this ⊢
        omega
    · rw [if_neg hc]
      have : j = min (i + p) L := by omega
      rw [← this]

theorem parityOuterLoop_spec (c : Nat → Int) (p L : Nat) (hp : 1 ≤ p) :
    ∀ fuel i t count, i + 1 = p * (2 * t + 1) → L ≤ i + fuel →
      parityOuterLoop c p L fuel i count + groupCount c p (min i L)
        = count + groupCount c p L := by
  intro fuel
  induction fuel with
  | zero =>
    intro i t count _ h
    have : min i L = L := by omega
    simp [parityOuterLoop, this]
  | succ fuel ih =>
    intro i t count hi hfuel
    unfold parityOuterLoop
    by_cases hc : i < L
    · rw [if_pos hc]
      have e1 : (2 * t + 1) * p = i + 1 := by rw [hi, Nat.mul_comm]
      have e2 : (2 * t + 1 + 1) * p = i + 1 + p := by rw [Nat.succ_mul, e1]
      have e3 : (2 * t + 1 + 1 + 1) * p = i + 1 + p + p := by rw [Nat.succ_mul, e2]
      have hblock : ∀ x, i ≤ x → x < i + p → (x + 1) / p % 2 = 1 := by
        intro x hx hx'
        have : (x + 1) / p = 2 * t + 1 :=
          Nat.div_eq_of_lt_le (by rw [e1]; omega) (by rw [e2]; omega)
        rw [this]; omega
      have hgap : ∀ x, min (i + p) L ≤ x → x < min (i + 2 * p) L → ¬ (x + 1) / p % 2 = 1 := by
        intro x hx hx'
        have : (x + 1) / p = 2 * t + 1 + 1 :=
          Nat.div_eq_of_lt_le (by rw [e2]; omega) (by rw [e3]; omega)
        rw [this]; omega
      have hin := parityInnerLoop_spec c p L i hblock p i count (Nat.le_refl i) (by omega)
        (by omega)
      have hnext : i + 2 * p + 1 = p * (2 * (t + 1) + 1) := by
        have : p * (2 * (t + 1) + 1) = p * (2 * t + 1) + 2 * p := by ring
        omega
      have hout := ih (i + 2 * p) (t + 1) (parityInnerLoop c i p L p i count) hnext (by omega)
      rw [groupCount_eq_of_not_mem c p (min (i + p) L) (min (i + 2 * p) L) (by omega) hgap] at hout
      have hmin : min i L = i := by omega
      rw [hmin]
      omega
    · rw [if_neg hc]
      have : min i L = L := by omega
      rw [this]

/-- The routine `calculateParity` returns the parity of the number of
entries equal to 1 in the group of `position`. -/
theorem calculateParity_eq (c : Nat → Int) (p L : Nat) (hp : 1 ≤ p) :
    calculateParity c p L = if groupCount c p L % 2 = 0 then 0 else 1 := by
  have h := parityOuterLoop_spec c p L hp L (p - 1) 0 0 (by simp; omega) (by omega)
  have h0 : groupCount c p (min (p - 1) L) = 0 := by
    rw [groupCount_eq_of_not_mem c p 0 _ (Nat.zero_le _), groupCount_zero]
    intro x _ hx
    have : (x + 1) / p = 0 := Nat.div_eq_of_lt (by omega)
    rw [this]; decide
  rw [h0] at h
  simp only [calculateParity]
  have : parityOuterLoop c p L L (p - 1) 0 = groupCount c p L := by omega
  rw [this]

/-! ### Powers of two and the number of binary digits -/

theorem bitLength_le_self (i : Nat) : bitLength i ≤ i :=
  (bitLength_le_iff i i).2 (Nat.lt_two_pow i)

theorem succ_le_two_pow_bitLength (i : Nat) : i + 1 ≤ 2 ^ bitLength i :=
  lt_two_pow_bitLength i

theorem bitLength_succ_of_pow {i : Nat} (h : i + 1 = 2 ^ bitLength i) :
    bitLength (i + 1) = bitLength i + 1 := by
  have a : bitLength i < bitLength (i + 1) := (lt_bitLength_iff _ _).2 (by omega)
  have b : bitLength (i + 1) ≤ bitLength i + 1 :=
    (bitLength_le_iff _ _).2 (by rw [pow_succ]; omega)
  omega

theorem bitLength_succ_of_not_pow {i : Nat} (h : i + 1 ≠ 2 ^ bitLength i) :
    bitLength (i + 1) = bitLength i := by
  have h1 := succ_le_two_pow_bitLength i
  have a : bitLength (i + 1) ≤ bitLength i := (bitLength_le_iff _ _).2 (by omega)
  have b : bitLength i ≤ bitLength (i + 1) := by
    by_contra hlt
    have h2 : 2 ^ bitLength (i + 1) ≤ i := (lt_bitLength_iff _ _).1 (by omega)
    have h3 := lt_two_pow_bitLength (i + 1)
    omega
  omega

theorem bitLength_eq_of_bounds {x k : Nat} (h1 : 2 ^ k ≤ 2 * x + 1) (h2 : x < 2 ^ k) :
    bitLength x = k := by
  have a : bitLength x ≤ k := (bitLength_le_iff _ _).2 h2
  have b : k ≤ bitLength x := by
    cases k with
    | zero => omega
    | succ k =>
      have : 2 ^ k ≤ x := by rw [pow_succ] at h1; omega
      have := (lt_bitLength_iff x k).2 this
      omega
  omega

theorem isPowerOfTwo_succ_iff (i : Nat) : isPowerOfTwo (i + 1) ↔ i + 1 = 2 ^ bitLength i := by
  constructor
  · rintro ⟨k, _, hk⟩
    have : bitLength i = k := bitLength_eq_of_bounds (by omega) (by omega)
    rw [this]; exact hk
  · intro h
    exact ⟨bitLength i, by have := bitLength_le_self i; omega, h⟩

/-! ### The layout loop -/

/-- After the layout loop every index it visited holds 0 when it is a parity
index, else the next data bit; the other indices are untouched. -/
theorem layoutLoop_spec (dw : List Char) : ∀ rounds i j k (code : Nat → Int),
    k = bitLength i → j + k = i →
    (∀ x, x < i → layoutLoop dw rounds i j k code x = code x) ∧
    (∀ x, i + rounds ≤ x → layoutLoop dw rounds i j k code x = code x) ∧
    (∀ x, i ≤ x → x < i + rounds → layoutLoop dw rounds i j k code x =
      if x + 1 = 2 ^ bitLength x then 0
      else digitValue (dw.getD (x - bitLength x) (Char.ofNat 0))) := by
  intro rounds
  induction rounds with
  | zero =>
    intro i j k code _ _
    refine ⟨fun x _ => rfl, fun x _ => rfl, fun x h1 h2 => by omega⟩
  | succ rounds ih =>
    intro i j k code hk hj
    have hpos : 1 ≤ 2 ^ k := Nat.one_le_two_pow
    unfold layoutLoop
    by_cases hp : i = 2 ^ k - 1
    · rw [if_pos hp]
      have hp' : i + 1 = 2 ^ bitLength i := by rw [← hk]; omega
      obtain ⟨h1, h2, h3⟩ := ih (i + 1) j (k + 1) (setCode code i 0)
        (by rw [bitLength_succ_of_pow hp', hk]) (by omega)
      refine ⟨?_, ?_, ?_⟩
      · intro x hx
        rw [h1 x (by omega)]
        simp [setCode, Nat.ne_of_lt hx]
      · intro x hx
        rw [h2 x (by omega)]
        have : x ≠ i := by omega
        simp [setCode, this]
      · intro x hx hx'
        rcases Nat.eq_or_lt_of_le hx with h | h
        · subst h
          rw [h1 _ (by omega), if_pos hp']
          simp [setCode]
        · exact h3 x (by omega) (by omega)
    · rw [if_neg hp]
      have hp' : i + 1 ≠ 2 ^ bitLength i := by rw [← hk]; omega
      obtain ⟨h1, h2, h3⟩ := ih (i + 1) (j + 1) k
        (setCode code i (digitValue (dw.getD j (Char.ofNat 0))))
        (by rw [bitLength_succ_of_not_pow hp', hk]) (by omega)
      have hj' : j = i - bitLength i := by omega
      refine ⟨?_, ?_, ?_⟩
      · intro x hx
        rw [h1 x (by omega)]
        simp [setCode, Nat.ne_of_lt hx]
      · intro x hx
        rw [h2 x (by omega)]
        have : x ≠ i := by omega
        simp [setCode, this]
      · intro x hx hx'
        rcases Nat.eq_or_lt_of_le hx with h | h
        · subst h
          rw [h1 _ (by omega), if_neg hp', hj']
          simp [setCode]
        · exact h3 x (by omega) (by omega)

/-! ### The parity loop -/

theorem groupCount_congr {c c' : Nat → Int} {p L : Nat}
    (h : ∀ x, x < L → (x + 1) / p % 2 = 1 → c x = c' x) :
    groupCount c p L = groupCount c' p L := by
  induction L with
  | zero => simp [groupCount_zero]
  | succ L ih =>
    rw [groupCount_succ, groupCount_succ, ih (fun x hx => h x (by omega))]
    by_cases hm : (L + 1) / p % 2 = 1
    · rw [h L (by omega) hm]
    · simp [hm]

theorem groupCount_setCode {c : Nat → Int} {p a : Nat} (v : Int)
    (hmem : (a + 1) / p % 2 = 1) (hc : c a ≠ 1) : ∀ L, a < L →
    groupCount (setCode c a v) p L = groupCount c p L + (if v = 1 then 1 else 0) := by
  intro L
  induction L with
  | zero => intro h; omega
  | succ L ih =>
    intro haL
    rw [groupCount_succ, groupCount_succ]
    rcases Nat.eq_or_lt_of_le (Nat.le_of_lt_succ haL) with h | h
    · subst h
      have hcongr : groupCount (setCode c a v) p a = groupCount c p a :=
        groupCount_congr (fun x hx _ => by simp [setCode, Nat.ne_of_lt hx])
      rw [hcongr]
      simp [setCode, hmem, hc]
    · rw [ih h]
      have : L ≠ a := by omega
      simp only [setCode, this, if_false]
      omega

theorem pow_sub_one_mem_group (k : Nat) : (2 ^ k - 1 + 1) / 2 ^ k % 2 = 1 := by
  have : 2 ^ k - 1 + 1 = 2 ^ k := by have := Nat.one_le_two_pow (n := k); omega
  rw [this, Nat.div_self (Nat.two_pow_pos k)]

theorem pow_sub_one_not_mem_group {k k' : Nat} (h : k' ≠ k) :
    ¬ (2 ^ k' - 1 + 1) / 2 ^ k % 2 = 1 := by
  have : 2 ^ k' - 1 + 1 = 2 ^ k' := by have := Nat.one_le_two_pow (n := k'); omega
  rw [this]
  rcases Nat.lt_or_gt_of_ne h with hlt | hgt
  · rw [Nat.div_eq_of_lt (Nat.pow_lt_pow_right (by decide) hlt)]; decide
  · rw [Nat.pow_div (Nat.le_of_lt hgt) (by decide)]
    obtain ⟨e, he⟩ : ∃ e, k' - k = e + 1 := ⟨k' - k - 1, by omega⟩
    rw [he, pow_succ]; omega

theorem pow_sub_one_ne {k k' : Nat} (h : k' ≠ k) : 2 ^ k' - 1 ≠ 2 ^ k - 1 := by
  intro heq
  have h1 := Nat.one_le_two_pow (n := k)
  have h2 := Nat.one_le_two_pow (n := k')
  have : 2 ^ k' = 2 ^ k := by omega
  exact h (Nat.pow_right_injective (Nat.le_refl 2) this)

theorem calculateParity_zero_or_one (c : Nat → Int) (p L : Nat) :
    calculateParity c p L = 0 ∨ calculateParity c p L = 1 := by
  simp only [calculateParity]
  split
  · exact Or.inl rfl
  · exact Or.inr rfl

/-- The parity loop changes the parity indices it visits and nothing else. -/
theorem parityLoop_other (L : Nat) : ∀ rounds i (c : Nat → Int) x,
    (∀ k, i ≤ k → k < i + rounds → x ≠ 2 ^ k - 1) → parityLoop L rounds i c x = c x := by
  intro rounds
  induction rounds with
  | zero => intro i c x _; rfl
  | succ rounds ih =>
    intro i c x hx
    unfold parityLoop
    rw [ih (i + 1) _ x (fun k hk hk' => hx k (by omega) (by omega))]
    simp [setCode, hx i (Nat.le_refl i) (by omega)]

theorem parityLoop_value (L : Nat) : ∀ rounds i (c : Nat → Int) k,
    i ≤ k → k < i + rounds →
    parityLoop L rounds i c (2 ^ k - 1) = 0 ∨ parityLoop L rounds i c (2 ^ k - 1) = 1 := by
  intro rounds
  induction rounds with
  | zero => intro i c k h1 h2; omega
  | succ rounds ih =>
    intro i c k h1 h2
    unfold parityLoop
    rcases Nat.eq_or_lt_of_le h1 with h | h
    · subst h
      rw [parityLoop_other L rounds (i + 1) _ _
        (fun k' hk' _ => (pow_sub_one_ne (by omega : k' ≠ i)).symm)]
      simp only [setCode, if_true]
      exact calculateParity_zero_or_one c _ L
    · exact ih (i + 1) _ k (by omega) (by omega)

/-- After the parity loop every group it visited holds an even number of
ones, provided the parity indices held 0 before and lie inside the code. -/
theorem parityLoop_even (L : Nat) : ∀ rounds i (c : Nat → Int),
    (∀ k, i ≤ k → k < i + rounds → c (2 ^ k - 1) = 0) →
    (∀ k, i ≤ k → k < i + rounds → 2 ^ k - 1 < L) →
    ∀ k, i ≤ k → k < i + rounds → groupCount (parityLoop L rounds i c) (2 ^ k) L % 2 = 0 := by
  intro rounds
  induction rounds with
  | zero => intro i c _ _ k h1 h2; omega
  | succ rounds ih =>
    intro i c hzero hin k h1 h2
    unfold parityLoop
    rcases Nat.eq_or_lt_of_le h1 with h | h
    · subst h
      have hcongr : groupCount (parityLoop L rounds (i + 1)
            (setCode c (2 ^ i - 1) (calculateParity c (2 ^ i) L))) (2 ^ i) L
          = groupCount (setCode c (2 ^ i - 1) (calculateParity c (2 ^ i) L)) (2 ^ i) L := by
        apply groupCount_congr
        intro x _ hmem
        apply parityLoop_other
        intro k' hk' _ hxe
        rw [hxe] at hmem
        exact pow_sub_one_not_mem_group (by omega : k' ≠ i) hmem
      have hz : c (2 ^ i - 1) ≠ 1 := by
        rw [hzero i (Nat.le_refl i) (by omega)]; decide
      rw [hcongr, groupCount_setCode _ (pow_sub_one_mem_group i) hz L
        (hin i (Nat.le_refl i) (by omega)), calculateParity_eq c _ L Nat.one_le_two_pow]
      by_cases hpar : groupCount c (2 ^ i) L % 2 = 0
      · simp [hpar]
      · simp only [hpar, if_false, if_true]
        omega
    · apply ih (i + 1) _ _ _ k (by omega) (by omega)
      · intro k' hk' hk''
        have hne : 2 ^ k' - 1 ≠ 2 ^ i - 1 := pow_sub_one_ne (by omega)
        simp only [setCode, hne, if_false]
        exact hzero k' (by omega) (by omega)
      · intro k' hk' hk''
        exact hin k' (by omega) (by omega)

/-! ### `generateHammingCode` -/

theorem reverseString_eq (l : List Char) : reverseString l = l.reverse := by
  apply List.ext_getElem
  · simp [reverseString]
  · intro i h1 h2
    have hi : i < l.length := by simpa [reverseString] using h1
    have hidx : l.length - i - 1 < l.length := by omega
    simp only [reverseString, List.getElem_map, List.getElem_range, List.getElem_reverse]
    rw [List.getD_eq_getElem _ _ hidx]
    congr 1
    omega

theorem bitLength_pow_sub_one (k : Nat) : bitLength (2 ^ k - 1) = k := by
  have := Nat.one_le_two_pow (n := k)
  exact bitLength_eq_of_bounds (by omega) (by omega)

theorem parityCount_unique {n r r0 : Nat} (hr1 : n + r + 1 ≤ 2 ^ r)
    (hr2 : ∀ r', r' < r → 2 ^ r' < n + r' + 1) (h1 : n + r0 + 1 ≤ 2 ^ r0)
    (h2 : ∀ r', r' < r0 → 2 ^ r' < n + r' + 1) : r0 = r := by
  rcases Nat.lt_trichotomy r0 r with h | h | h
  · have := hr2 r0 h; omega
  · exact h
  · have := h2 r h; omega

theorem parity_index_lt {n r k : Nat} (hr2 : ∀ r', r' < r → 2 ^ r' < n + r' + 1) (hk : k < r) :
    2 ^ k - 1 < r + n := by
  have h1 := hr2 (r - 1) (by omega)
  have h2 : 2 ^ k ≤ 2 ^ (r - 1) := Nat.pow_le_pow_right (by decide) (by omega)
  omega

theorem data_index_lt {n r x : Nat} (hr2 : ∀ r', r' < r → 2 ^ r' < n + r' + 1)
    (hr1 : n + r + 1 ≤ 2 ^ r) (hx : x < r + n) : x - bitLength x < n ∨ n = 0 := by
  have hb : bitLength x ≤ r := (bitLength_le_iff x r).2 (by omega)
  rcases Nat.eq_or_lt_of_le hb with h | h
  · rw [h]; omega
  · have h1 := hr2 (bitLength x) h
    have h2 := lt_two_pow_bitLength x
    omega

/-- What a call of `generateHammingCode` leaves in memory, for the least `r`
with `2 ^ r ≥ n + r + 1`: the caller's buffer reversed, the array `code` with
the reversed data bits at the indices that are not parity indices and an
even number of ones in every parity group, and `hammingCode` spelling
`code` from its last used index down to index 0. -/
theorem generate_spec (code0 : Nat → Int) (d : List Char) (r fuel : Nat)
    (hr1 : d.length + r + 1 ≤ 2 ^ r) (hr2 : ∀ r', r' < r → 2 ^ r' < d.length + r' + 1)
    (hfuel : d.length + 1 ≤ fuel) :
    ∃ st, generateHammingCode fuel code0 d = some st ∧ st.dataword = d.reverse ∧
      st.hammingCode = (List.range (r + d.length)).map
        (fun i => if st.code (r + d.length - i - 1) = 0 then '0' else '1') ∧
      (∀ x, x < r + d.length → x + 1 ≠ 2 ^ bitLength x →
        st.code x = digitValue (d.reverse.getD (x - bitLength x) (Char.ofNat 0))) ∧
      (∀ x, x < r + d.length → x + 1 = 2 ^ bitLength x → st.code x = 0 ∨ st.code x = 1) ∧
      (∀ k, k < r → groupCount st.code (2 ^ k) (r + d.length) % 2 = 0) := by
  obtain ⟨r0, hloop, h1, h2⟩ :=
    parityCountLoop_spec d.length fuel 0 (by intro r' h; omega) (by omega)
  have hr0 : r0 = r := parityCount_unique hr1 hr2 h1 h2
  subst hr0
  obtain ⟨_, _, hlay⟩ := layoutLoop_spec (reverseString d) (r0 + d.length) 0 0 0 code0
    (by rw [bitLength_zero]) rfl
  have hgen : generateHammingCode fuel code0 d = some
      { dataword := reverseString d
        code := parityLoop (r0 + d.length) r0 0
          (layoutLoop (reverseString d) (r0 + d.length) 0 0 0 code0)
        hammingCode := (List.range (r0 + d.length)).map (fun i =>
          if parityLoop (r0 + d.length) r0 0
            (layoutLoop (reverseString d) (r0 + d.length) 0 0 0 code0)
            (r0 + d.length - i - 1) = 0 then '0' else '1') } := by
    simp only [generateHammingCode, hloop]
  refine ⟨_, hgen, ?_, rfl, ?_, ?_, ?_⟩
  · exact reverseString_eq d
  · intro x hx hnp
    show parityLoop _ _ _ _ x = _
    rw [parityLoop_other]
    · rw [hlay x (Nat.zero_le x) (by omega), if_neg hnp, reverseString_eq]
    · intro k _ _ hxe
      apply hnp
      rw [hxe, bitLength_pow_sub_one]
      have := Nat.one_le_two_pow (n := k)
      omega
  · intro x hx hp
    show parityLoop _ _ _ _ x = 0 ∨ parityLoop _ _ _ _ x = 1
    have hk : bitLength x < r0 := by
      have h3 : 2 ^ bitLength x < 2 ^ r0 := by omega
      exact (Nat.pow_lt_pow_iff_right (by decide)).1 h3
    have hxe : x = 2 ^ bitLength x - 1 := by omega
    rw [hxe]
    exact parityLoop_value _ _ _ _ _ (Nat.zero_le _) (by omega)
  · intro k hk
    show groupCount (parityLoop _ _ _ _) _ _ % 2 = 0
    apply parityLoop_even _ _ _ _ _ _ k (Nat.zero_le k) (by omega)
    · intro k' _ hk'
      have hlt : 2 ^ k' - 1 < r0 + d.length := parity_index_lt hr2 (by omega)
      rw [hlay _ (Nat.zero_le _) (by omega), bitLength_pow_sub_one, if_pos]
      have := Nat.one_le_two_pow (n := k')
      omega
    · intro k' _ hk'
      exact parity_index_lt hr2 (by omega)

/-! ### The emitted codeword -/

theorem getD_map_range {α : Type} (f : Nat → α) (L s : Nat) (a : α) (hs : s < L) :
    ((List.range L).map f).getD s a = f s := by
  rw [List.getD_eq_getElem _ _ (by simpa using hs)]
  simp

theorem digitValue_zero : digitValue '0' = 0 := by decide

theorem digitValue_one : digitValue '1' = 1 := by decide

theorem reverse_getD_binary {d : List Char} (hbits : ∀ c, c ∈ d → c = '0' ∨ c = '1')
    {idx : Nat} (h : idx < d.length) :
    d.reverse.getD idx (Char.ofNat 0) = '0' ∨ d.reverse.getD idx (Char.ofNat 0) = '1' := by
  have hlen : idx < d.reverse.length := by simpa using h
  rw [List.getD_eq_getElem _ _ hlen]
  exact hbits _ (List.mem_reverse.1 (List.getElem_mem hlen))

theorem length_zero_parity {n r : Nat} (hr2 : ∀ r', r' < r → 2 ^ r' < n + r' + 1)
    (hn : n = 0) : r = 0 := by
  by_contra h
  have := hr2 0 (by omega)
  simp at this
  omega

/-- Claim C3: for every dataword over `'0'`/`'1'` of length `m`, with `r` the
least parity count (`2 ^ r ≥ m + r + 1`) and `m + r ≤ 32`,
`generateHammingCode` returns and the codeword it emits has `m + r`
characters and valid parity groups: for every `i < r`, the number of `'1'`
characters at the positions whose index (counted from 1 at the right end of
the string) has bit `2 ^ i` set, the parity position itself included, is
even. -/
theorem hamming_parity_groups_even (code0 : Nat → Int) (d : List Char) (r fuel : Nat)
    (hbits : ∀ c, c ∈ d → c = '0' ∨ c = '1')
    (hr1 : d.length + r + 1 ≤ 2 ^ r) (hr2 : ∀ r', r' < r → 2 ^ r' < d.length + r' + 1)
    (_hcap : d.length + r ≤ 32) (hfuel : d.length + 1 ≤ fuel) :
    ∃ st, generateHammingCode fuel code0 d = some st ∧
      st.hammingCode.length = d.length + r ∧
      ∀ i, i < r → groupOnes st.hammingCode i % 2 = 0 := by
  obtain ⟨st, hgen, _, hstr, hdata, hpar, heven⟩ := generate_spec code0 d r fuel hr1 hr2 hfuel
  have hlen : st.hammingCode.length = r + d.length := by rw [hstr]; simp
  refine ⟨st, hgen, by omega, ?_⟩
  intro i hi
  have hbin : ∀ x, x < r + d.length → st.code x = 0 ∨ st.code x = 1 := by
    intro x hx
    by_cases hp : x + 1 = 2 ^ bitLength x
    · exact hpar x hx hp
    · rw [hdata x hx hp]
      rcases data_index_lt hr2 hr1 hx with h | h
      · rcases reverse_getD_binary hbits h with h' | h'
        · rw [h']; exact Or.inl digitValue_zero
        · rw [h']; exact Or.inr digitValue_one
      · have := length_zero_parity hr2 h; omega
  have hcount : groupOnes st.hammingCode i = groupCount st.code (2 ^ i) (r + d.length) := by
    unfold groupOnes groupCount
    rw [hlen]
    apply List.countP_congr
    intro j hj
    have hj' : j < r + d.length := List.mem_range.1 hj
    have hget : st.hammingCode.getD (r + d.length - 1 - j) '0'
        = if st.code j = 0 then '0' else '1' := by
      rw [hstr, getD_map_range _ _ _ _ (by omega)]
      have : r + d.length - (r + d.length - 1 - j) - 1 = j := by omega
      rw [this]
    rw [hget, Nat.testBit_to_div_mod]
    rcases hbin j hj' with h | h <;> simp [h]
  rw [hcount]
  exact heven i hi

/-- The worked example of the specification: the dataword `1011001` needs
four parity bits and gives the codeword `10101001110`, whose four parity
groups are even. -/
theorem hamming_parity_groups_even_witness :
    (∃ st, generateHammingCode 8 (fun _ => 0) "1011001".toList = some st ∧
      st.hammingCode.length = 7 + 4 ∧ ∀ i, i < 4 → groupOnes st.hammingCode i % 2 = 0) ∧
    (generateHammingCode 8 (fun _ => 0) "1011001".toList).map (fun st => st.hammingCode)
      = some "10101001110".toList :=
  ⟨hamming_parity_groups_even (fun _ => 0) "1011001".toList 4 8 (by decide) (by decide)
    (by decide) (by decide) (by decide), by decide⟩

/-- Claim C10 as stated fails: after `generateHammingCode` ran on the
dataword `10`, the caller's buffer holds `01`. -/
theorem hamming_overwrites_dataword :
    (generateHammingCode 3 (fun _ => 0) "10".toList).map (fun st => st.dataword)
        = some "01".toList ∧
      (generateHammingCode 3 (fun _ => 0) "10".toList).map (fun st => st.dataword)
        ≠ some "10".toList := by
  decide

/-! ### The data bits of the emitted codeword -/

/-- Reading a range from its far end reverses what is kept of it. -/
theorem map_filter_range_reverse {α : Type} (P : Nat → Bool) (g : Nat → α) (L : Nat) :
    ((List.range L).filter (fun s => P (L - 1 - s))).map (fun s => g (L - 1 - s))
      = (((List.range L).filter P).map g).reverse := by
  have hrev : (List.range L).reverse = (List.range L).map (fun s => L - 1 - s) := by
    rw [List.range_eq_range', List.reverse_range', List.range_eq_range']
    simp
  rw [← List.map_reverse, ← List.filter_reverse, hrev, List.filter_map, List.map_map]
  rfl

theorem map_getD_range (l : List Char) (a : Char) :
    (List.range l.length).map (fun i => l.getD i a) = l := by
  apply List.ext_getElem
  · simp
  · intro i h1 h2
    simp only [List.getElem_map, List.getElem_range]
    exact List.getD_eq_getElem _ _ h2

/-- The indices that are not parity indices, in increasing order, are the
places of the data bits `0, 1, 2, ...`. -/
theorem data_indices_map (L : Nat) :
    ((List.range L).filter (fun x => decide (¬ isPowerOfTwo (x + 1)))).map
      (fun x => x - bitLength x) = List.range (L - bitLength L) := by
  induction L with
  | zero => simp
  | succ L ih =>
    rw [List.range_succ, List.filter_append, List.map_append, ih]
    have hle := bitLength_le_self L
    by_cases hp : L + 1 = 2 ^ bitLength L
    · have : isPowerOfTwo (L + 1) := (isPowerOfTwo_succ_iff L).2 hp
      rw [bitLength_succ_of_pow hp]
      have e : L + 1 - (bitLength L + 1) = L - bitLength L := by omega
      simp [this, e]
    · have : ¬ isPowerOfTwo (L + 1) := fun h => hp ((isPowerOfTwo_succ_iff L).1 h)
      rw [bitLength_succ_of_not_pow hp]
      have e : L + 1 - bitLength L = (L - bitLength L) + 1 := by omega
      simp [this, e, List.range_succ]

/-- Among the positions `1 .. L` there are as many powers of two as `L` has
binary digits. -/
theorem countP_isPowerOfTwo (L : Nat) :
    (List.range L).countP (fun j => decide (isPowerOfTwo (j + 1))) = bitLength L := by
  induction L with
  | zero => simp [bitLength_zero]
  | succ L ih =>
    rw [List.range_succ, List.countP_append, ih]
    by_cases hp : L + 1 = 2 ^ bitLength L
    · have : isPowerOfTwo (L + 1) := (isPowerOfTwo_succ_iff L).2 hp
      rw [bitLength_succ_of_pow hp]
      simp [this]
    · have : ¬ isPowerOfTwo (L + 1) := fun h => hp ((isPowerOfTwo_succ_iff L).1 h)
      rw [bitLength_succ_of_not_pow hp]
      simp [this]

theorem bitLength_total {n r : Nat} (hr1 : n + r + 1 ≤ 2 ^ r)
    (hr2 : ∀ r', r' < r → 2 ^ r' < n + r' + 1) : bitLength (r + n) = r := by
  apply bitLength_eq_of_bounds
  · cases r with
    | zero => simp
    | succ k =>
      have := hr2 k (by omega)
      rw [pow_succ]; omega
  · omega

/-- Claim C5: for every dataword over `'0'`/`'1'` of length `m`, with `r` the
least parity count (`2 ^ r ≥ m + r + 1`) and `m + r ≤ 32`,
`generateHammingCode` returns and the codeword it emits is the dataword with
`r` parity characters interleaved at the power-of-two positions: it has
`m + r` characters, exactly `r` of the positions `1 .. m + r` are powers of
two, and the characters at the other positions (positions counted from 1 at
the right end), read in the order of the string, are the original
dataword. -/
theorem hamming_data_bits_interleaved (code0 : Nat → Int) (d : List Char) (r fuel : Nat)
    (hbits : ∀ c, c ∈ d → c = '0' ∨ c = '1')
    (hr1 : d.length + r + 1 ≤ 2 ^ r) (hr2 : ∀ r', r' < r → 2 ^ r' < d.length + r' + 1)
    (_hcap : d.length + r ≤ 32) (hfuel : d.length + 1 ≤ fuel) :
    ∃ st, generateHammingCode fuel code0 d = some st ∧
      st.hammingCode.length = d.length + r ∧
      (List.range st.hammingCode.length).countP (fun j => decide (isPowerOfTwo (j + 1))) = r ∧
      dataCharacters st.hammingCode = d := by
  obtain ⟨st, hgen, _, hstr, hdata, _, _⟩ := generate_spec code0 d r fuel hr1 hr2 hfuel
  have hlen : st.hammingCode.length = r + d.length := by rw [hstr]; simp
  have hbl : bitLength (r + d.length) = r := bitLength_total hr1 hr2
  refine ⟨st, hgen, by omega, ?_, ?_⟩
  · rw [hlen, countP_isPowerOfTwo, hbl]
  · unfold dataCharacters
    rw [hlen]
    have h1 : (List.range (r + d.length)).filter
          (fun s => decide (¬ isPowerOfTwo (r + d.length - s)))
        = (List.range (r + d.length)).filter
          (fun s => (fun x => decide (¬ isPowerOfTwo (x + 1))) (r + d.length - 1 - s)) := by
      apply List.filter_congr
      intro s hs
      have hs' : s < r + d.length := List.mem_range.1 hs
      have : r + d.length - 1 - s + 1 = r + d.length - s := by omega
      simp only [this]
    have h2 : ∀ s, s ∈ (List.range (r + d.length)).filter
          (fun s => (fun x => decide (¬ isPowerOfTwo (x + 1))) (r + d.length - 1 - s)) →
        st.hammingCode.getD s '0'
          = (fun x => if st.code x = 0 then '0' else '1') (r + d.length - 1 - s) := by
      intro s hs
      have hs' : s < r + d.length := List.mem_range.1 (List.mem_filter.1 hs).1
      rw [hstr, getD_map_range _ _ _ _ hs']
      have : r + d.length - s - 1 = r + d.length - 1 - s := by omega
      simp only [this]
    rw [h1, List.map_congr_left h2]
    refine Eq.trans (map_filter_range_reverse (fun x => decide (¬ isPowerOfTwo (x + 1)))
      (fun x => if st.code x = 0 then '0' else '1') (r + d.length)) ?_
    have h3 : ∀ x, x ∈ (List.range (r + d.length)).filter
          (fun x => decide (¬ isPowerOfTwo (x + 1))) →
        (if st.code x = 0 then '0' else '1')
          = ((fun i => d.reverse.getD i (Char.ofNat 0)) ∘ (fun x => x - bitLength x)) x := by
      intro x hx
      obtain ⟨hx1, hx2⟩ := List.mem_filter.1 hx
      have hx' : x < r + d.length := List.mem_range.1 hx1
      have hnp : x + 1 ≠ 2 ^ bitLength x := by
        intro h
        have := (isPowerOfTwo_succ_iff x).2 h
        simp [this] at hx2
      rw [hdata x hx' hnp]
      simp only [Function.comp]
      rcases data_index_lt hr2 hr1 hx' with h | h
      · rcases reverse_getD_binary hbits h with h' | h'
        · rw [h', digitValue_zero]; rfl
        · rw [h', digitValue_one]; rfl
      · have := length_zero_parity hr2 h; omega
    rw [List.map_congr_left h3, ← List.map_map, data_indices_map, hbl]
    have hn : r + d.length - r = d.reverse.length := by simp
    rw [hn, map_getD_range, List.reverse_reverse]

/-- The worked example of the specification: the seven-bit dataword
`1011001` needs `r = 4` and yields an eleven-character codeword whose
characters off the positions 1, 2, 4, 8 spell `1011001`. -/
theorem hamming_data_bits_interleaved_witness :
    ∃ st, generateHammingCode 8 (fun _ => 0) "1011001".toList = some st ∧
      st.hammingCode.length = 7 + 4 ∧
      (List.range st.hammingCode.length).countP (fun j => decide (isPowerOfTwo (j + 1))) = 4 ∧
      dataCharacters st.hammingCode = "1011001".toList :=
  hamming_data_bits_interleaved (fun _ => 0) "1011001".toList 4 8 (by decide) (by decide)
    (by decide) (by decide) (by decide)

/-! ### What one call leaves in memory -/

/-- The memory after a call of `generateHammingCode`, on the strings alone:
the caller's buffer holds the dataword reversed, and `hammingCode` holds the
codeword of the dataword: `m + r` characters `'0'`/`'1'`, the data
characters (those off the power-of-two positions) spelling the dataword, and
every parity group even. -/
theorem generate_codeword_spec (code0 : Nat → Int) (d : List Char) (r fuel : Nat)
    (hbits : ∀ c, c ∈ d → c = '0' ∨ c = '1')
    (hr1 : d.length + r + 1 ≤ 2 ^ r) (hr2 : ∀ r', r' < r → 2 ^ r' < d.length + r' + 1)
    (hfuel : d.length + 1 ≤ fuel) :
    ∃ st, generateHammingCode fuel code0 d = some st ∧ st.dataword = d.reverse ∧
      st.hammingCode.length = d.length + r ∧
      (∀ c, c ∈ st.hammingCode → c = '0' ∨ c = '1') ∧
      (∀ i, i < r → groupOnes st.hammingCode i % 2 = 0) ∧
      dataCharacters st.hammingCode = d := by
  obtain ⟨st, hgen, hrev, hstr, hdata, hpar, heven⟩ :=
    generate_spec code0 d r fuel hr1 hr2 hfuel
  have hlen : st.hammingCode.length = r + d.length := by rw [hstr]; simp
  have hbl : bitLength (r + d.length) = r := bitLength_total hr1 hr2
  have hbin : ∀ x, x < r + d.length → st.code x = 0 ∨ st.code x = 1 := by
    intro x hx
    by_cases hp : x + 1 = 2 ^ bitLength x
    · exact hpar x hx hp
    · rw [hdata x hx hp]
      rcases data_index_lt hr2 hr1 hx with h | h
      · rcases reverse_getD_binary hbits h with h' | h'
        · rw [h']; exact Or.inl digitValue_zero
        · rw [h']; exact Or.inr digitValue_one
      · have := length_zero_parity hr2 h; omega
  refine ⟨st, hgen, hrev, by omega, ?_, ?_, ?_⟩
  · intro c hc
    rw [hstr] at hc
    obtain ⟨k, _, hk⟩ := List.mem_map.1 hc
    rw [← hk]
    split
    · exact Or.inl rfl
    · exact Or.inr rfl
  · intro i hi
    have hcount : groupOnes st.hammingCode i = groupCount st.code (2 ^ i) (r + d.length) := by
      unfold groupOnes groupCount
      rw [hlen]
      apply List.countP_congr
      intro j hj
      have hj' : j < r + d.length := List.mem_range.1 hj
      have hget : st.hammingCode.getD (r + d.length - 1 - j) '0'
          = if st.code j = 0 then '0' else '1' := by
        rw [hstr, getD_map_range _ _ _ _ (by omega)]
        have : r + d.length - (r + d.length - 1 - j) - 1 = j := by omega
        rw [this]
      rw [hget, Nat.testBit_to_div_mod]
      rcases hbin j hj' with h | h <;> simp [h]
    rw [hcount]
    exact heven i hi
  · unfold dataCharacters
    rw [hlen]
    have h1 : (List.range (r + d.length)).filter
          (fun s => decide (¬ isPowerOfTwo (r + d.length - s)))
        = (List.range (r + d.length)).filter
          (fun s => (fun x => decide (¬ isPowerOfTwo (x + 1))) (r + d.length - 1 - s)) := by
      apply List.filter_congr
      intro s hs
      have hs' : s < r + d.length := List.mem_range.1 hs
      have : r + d.length - 1 - s + 1 = r + d.length - s := by omega
      simp only [this]
    have h2 : ∀ s, s ∈ (List.range (r + d.length)).filter
          (fun s => (fun x => decide (¬ isPowerOfTwo (x + 1))) (r + d.length - 1 - s)) →
        st.hammingCode.getD s '0'
          = (fun x => if st.code x = 0 then '0' else '1') (r + d.length - 1 - s) := by
      intro s hs
      have hs' : s < r + d.length := List.mem_range.1 (List.mem_filter.1 hs).1
      rw [hstr, getD_map_range _ _ _ _ hs']
      have : r + d.length - s - 1 = r + d.length - 1 - s := by omega
      simp only [this]
    rw [h1, List.map_congr_left h2]
    refine Eq.trans (map_filter_range_reverse (fun x => decide (¬ isPowerOfTwo (x + 1)))
      (fun x => if st.code x = 0 then '0' else '1') (r + d.length)) ?_
    have h3 : ∀ x, x ∈ (List.range (r + d.length)).filter
          (fun x => decide (¬ isPowerOfTwo (x + 1))) →
        (if st.code x = 0 then '0' else '1')
          = ((fun i => d.reverse.getD i (Char.ofNat 0)) ∘ (fun x => x - bitLength x)) x := by
      intro x hx
      obtain ⟨hx1, hx2⟩ := List.mem_filter.1 hx
      have hx' : x < r + d.length := List.mem_range.1 hx1
      have hnp : x + 1 ≠ 2 ^ bitLength x := by
        intro h
        have := (isPowerOfTwo_succ_iff x).2 h
        simp [this] at hx2
      rw [hdata x hx' hnp]
      simp only [Function.comp]
      rcases data_index_lt hr2 hr1 hx' with h | h
      · rcases reverse_getD_binary hbits h with h' | h'
        · rw [h', digitValue_zero]; rfl
        · rw [h', digitValue_one]; rfl
      · have := length_zero_parity hr2 h; omega
    rw [List.map_congr_left h3, ← List.map_map, data_indices_map, hbl]
    have hn : r + d.length - r = d.reverse.length := by simp
    rw [hn, map_getD_range, List.reverse_reverse]

/-- Claim C10, amended: for every dataword over `'0'`/`'1'` of length `m`,
with `r` the least parity count and `m + r ≤ 32`, `generateHammingCode`
returns and is not side-effect-free on its input: the caller's dataword
buffer then holds the dataword reversed (the same characters in the opposite
order), and the codeword is left in the global `hammingCode`: `m + r`
characters `'0'`/`'1'` whose data characters spell the original dataword and
whose parity groups are all even. -/
theorem hamming_dataword_reversed (code0 : Nat → Int) (d : List Char) (r fuel : Nat)
    (hbits : ∀ c, c ∈ d → c = '0' ∨ c = '1')
    (hr1 : d.length + r + 1 ≤ 2 ^ r) (hr2 : ∀ r', r' < r → 2 ^ r' < d.length + r' + 1)
    (_hcap : d.length + r ≤ 32) (hfuel : d.length + 1 ≤ fuel) :
    ∃ st, generateHammingCode fuel code0 d = some st ∧ st.dataword = d.reverse ∧
      st.hammingCode.length = d.length + r ∧
      (∀ c, c ∈ st.hammingCode → c = '0' ∨ c = '1') ∧
      (∀ i, i < r → groupOnes st.hammingCode i % 2 = 0) ∧
      dataCharacters st.hammingCode = d :=
  generate_codeword_spec code0 d r fuel hbits hr1 hr2 hfuel

/-- The dataword `1011001` is left as `1001101` in the caller's buffer, and
`hammingCode` holds its codeword `10101001110`. -/
theorem hamming_dataword_reversed_witness :
    (∃ st, generateHammingCode 8 (fun _ => 0) "1011001".toList = some st ∧
      st.dataword = "1011001".toList.reverse ∧
      st.hammingCode.length = 7 + 4 ∧
      (∀ c, c ∈ st.hammingCode → c = '0' ∨ c = '1') ∧
      (∀ i, i < 4 → groupOnes st.hammingCode i % 2 = 0) ∧
      dataCharacters st.hammingCode = "1011001".toList) ∧
    (generateHammingCode 8 (fun _ => 0) "1011001".toList).map
        (fun st => (st.dataword, st.hammingCode))
      = some ("1001101".toList, "10101001110".toList) :=
  ⟨hamming_dataword_reversed (fun _ => 0) "1011001".toList 4 8 (by decide) (by decide)
    (by decide) (by decide) (by decide), by decide⟩

end UdpHamming

namespace BitStuff

/-! ### `bit_stuffing` against the rule stated on the input -/

theorem sixEndingAt_append (p : List Char) (c : Char) (rest : List Char) :
    sixEndingAt (p ++ c :: rest) p.length = ((c :: p.reverse).take 6).reverse := by
  unfold sixEndingAt
  have : (p ++ c :: rest).take (p.length + 1) = p ++ [c] := by
    rw [List.take_append_eq_append_take]
    simp
  rw [this]
  simp

theorem getD_append_length (p : List Char) (c : Char) (rest : List Char) (a : Char) :
    (p ++ c :: rest).getD p.length a = c := by
  rw [List.getD_eq_getElem?_getD, List.getElem?_append_right (Nat.le_refl _)]
  simp

theorem stuffAt_append (p : List Char) (c : Char) (rest : List Char) :
    stuffAt (p ++ c :: rest) p.length =
      if (c :: p.reverse).take 6 = ['1', '1', '1', '1', '1', '0'] then [c, '0'] else [c] := by
  unfold stuffAt
  rw [sixEndingAt_append, getD_append_length]
  have : (((c :: p.reverse).take 6).reverse = ['0', '1', '1', '1', '1', '1']) ↔
      ((c :: p.reverse).take 6 = ['1', '1', '1', '1', '1', '0']) := by
    constructor
    · intro h
      have := congrArg List.reverse h
      simpa using this
    · intro h
      rw [h]; rfl
  simp only [this]

theorem window_of_four {q : List Char} :
    ('1' :: (List.replicate 4 '1' ++ '0' :: q)).take 6 = ['1', '1', '1', '1', '1', '0'] := by
  rfl

theorem window_of_fewer {count : Nat} {q : List Char} (h : count ≤ 3) :
    ('1' :: (List.replicate count '1' ++ '0' :: q)).take 6 ≠ ['1', '1', '1', '1', '1', '0'] := by
  have h01 : ('0' : Char) ≠ '1' := by decide
  interval_cases count <;> simp [List.replicate, h01]

theorem window_of_ones {prev : List Char} (h : ∀ c, c ∈ prev.take 5 → c = '1') :
    ('1' :: prev).take 6 ≠ ['1', '1', '1', '1', '1', '0'] := by
  intro heq
  have h1 : ('1' :: prev).take 6 = '1' :: prev.take 5 := rfl
  rw [h1] at heq
  have h2 : prev.take 5 = ['1', '1', '1', '1', '0'] := by
    injection heq
  have := h '0' (by rw [h2]; simp)
  exact absurd this (by decide)

/-- From any state that satisfies the invariant, the loop of `bit_stuffing`
emits what the rule stated on the input emits. -/
theorem bitStuffingLoop_eq : ∀ (l p : List Char) (count : Nat) (flag : Bool),
    (∀ c, c ∈ l → c = '0' ∨ c = '1') → StuffInv p.reverse count flag →
    bitStuffingLoop l count flag = (List.range' p.length l.length).flatMap (stuffAt (p ++ l)) := by
  intro l
  induction l with
  | nil => intro p count flag _ _; simp [bitStuffingLoop]
  | cons c rest ih =>
    intro p count flag hbits hinv
    have hrest : ∀ x, x ∈ rest → x = '0' ∨ x = '1' := fun x hx => hbits x (List.mem_cons_of_mem c hx)
    have happ : p ++ c :: rest = (p ++ [c]) ++ rest := by simp
    have hlen : (p ++ [c]).length = p.length + 1 := by simp
    have hrev : (p ++ [c]).reverse = c :: p.reverse := by simp
    rw [List.length_cons, List.range'_succ, List.flatMap_cons, stuffAt_append]
    have hnext : ∀ count' flag', StuffInv (c :: p.reverse) count' flag' →
        bitStuffingLoop rest count' flag'
          = (List.range' (p.length + 1) rest.length).flatMap (stuffAt (p ++ c :: rest)) := by
      intro count' flag' h
      have := ih (p ++ [c]) count' flag' hrest (by rw [hrev]; exact h)
      rw [hlen, ← happ] at this
      exact this
    unfold bitStuffingLoop
    rcases hbits c (List.mem_cons_self c rest) with hc | hc
    · -- the character '0'
      subst hc
      have h01 : ¬ ('0' : Char) = '1' := by decide
      have hwin : ('0' :: p.reverse).take 6 ≠ ['1', '1', '1', '1', '1', '0'] := by
        intro h
        have : ('0' :: p.reverse).take 6 = '0' :: p.reverse.take 5 := rfl
        rw [this] at h
        injection h with h _
        exact h01 h
      rw [if_neg h01, if_neg hwin]
      rw [hnext 0 true ⟨fun _ => ⟨by omega, p.reverse, rfl⟩, fun h => Bool.noConfusion h⟩]
      rfl
    · -- the character '1'
      subst hc
      rw [if_pos rfl]
      cases flag with
      | true =>
        obtain ⟨hle, q, hq⟩ := hinv.1 rfl
        by_cases h5 : count + 1 = 5
        · have hc4 : count = 4 := by omega
          subst hc4
          rw [if_pos ⟨h5, rfl⟩, hq, if_pos window_of_four]
          rw [hnext 0 false ⟨fun h => Bool.noConfusion h, fun _ x hx => by
            rw [hq] at hx
            have h5' : ('1' :: (List.replicate 4 '1' ++ '0' :: q)).take 5
                = ['1', '1', '1', '1', '1'] := rfl
            rw [h5'] at hx
            simp at hx
            exact hx⟩]
          rfl
        · have hne : ¬ (count + 1 = 5 ∧ true = true) := fun h => h5 h.1
          rw [if_neg hne, hq, if_neg (window_of_fewer (by omega))]
          rw [hnext (count + 1) true ⟨fun _ => ⟨by omega, q, by
            rw [hq, List.replicate_succ]; rfl⟩, fun h => Bool.noConfusion h⟩]
          rfl
      | false =>
        have hones := hinv.2 rfl
        have hne : ¬ (count + 1 = 5 ∧ false = true) := fun h => Bool.noConfusion h.2
        rw [if_neg hne, if_neg (window_of_ones hones)]
        rw [hnext (count + 1) false ⟨fun h => Bool.noConfusion h, fun _ x hx => by
          have h5' : ('1' :: p.reverse).take 5 = '1' :: p.reverse.take 4 := rfl
          rw [h5'] at hx
          rcases List.mem_cons.1 hx with h | h
          · exact h
          · apply hones x
            have hsub : p.reverse.take 4 = (p.reverse.take 5).take 4 := by
              simp [List.take_take]
            rw [hsub] at h
            exact List.mem_of_mem_take h⟩]
        rfl

/-- Claim C6 as stated fails on a run that no `'0'` precedes: `111110` is
returned unchanged (the claim gives `1111100`), and `111111` is returned
with its six consecutive `'1'`s. -/
theorem bit_stuffing_unguarded_run :
    bit_stuffing "111110".toList = "111110".toList ∧
      bit_stuffing "111110".toList ≠ "1111100".toList ∧
      bit_stuffing "111111".toList = "111111".toList := by
  decide

/-- Claim C6, amended: for every bit-string `s`, `bit_stuffing(s)` is `s`
with a `'0'` inserted immediately after every run of five `'1'`s that
directly follows a `'0'` of `s` (every occurrence of `011111`), and nowhere
else. -/
theorem bit_stuffing_eq_rule (s : List Char) (hbits : ∀ c, c ∈ s → c = '0' ∨ c = '1') :
    bit_stuffing s = stuffAfterZeroFiveOnes s := by
  have h := bitStuffingLoop_eq s [] 0 false hbits
    ⟨fun h => Bool.noConfusion h, fun _ c hc => by simp at hc⟩
  simp only [List.length_nil, List.nil_append] at h
  rw [bit_stuffing, stuffAfterZeroFiveOnes, List.range_eq_range']
  exact h

/-- The concrete cases: `0111110` gets its guard bit, `01111100`; the same
run without the leading `'0'` does not. -/
theorem bit_stuffing_eq_rule_witness :
    bit_stuffing "0111110".toList = stuffAfterZeroFiveOnes "0111110".toList ∧
      stuffAfterZeroFiveOnes "0111110".toList = "01111100".toList ∧
      stuffAfterZeroFiveOnes "111110".toList = "111110".toList :=
  ⟨bit_stuffing_eq_rule "0111110".toList (by decide), by decide, by decide⟩

/-! ### The in-place loop of the server -/

theorem shiftLoop_eq (l : List Char) : ∀ prev : Char, shiftLoop prev l = prev :: l := by
  induction l with
  | nil => intro prev; rfl
  | cons c rest ih => intro prev; rw [shiftLoop, ih]

theorem take_succ_eq {bit : List Char} {i : Nat} (h : i < bit.length) :
    bit.take (i + 1) = bit.take i ++ [bit.getD i (Char.ofNat 0)] := by
  rw [List.take_succ, List.getD_eq_getElem _ _ h, List.getElem?_eq_getElem h]
  rfl

theorem drop_eq_cons {bit : List Char} {i : Nat} (h : i < bit.length) :
    bit.drop i = bit.getD i (Char.ofNat 0) :: bit.drop (i + 1) := by
  rw [List.getD_eq_getElem _ _ h]
  exact List.drop_eq_getElem_cons h

/-- With two rounds of fuel per character left, the server's loop returns
the part of the buffer it has passed followed by `stuffRest` of the rest. -/
theorem serverLoop_eq (n : Nat) : ∀ (fuel : Nat) (bit : List Char) (i count : Nat),
    bit.length - i = n → 2 * n ≤ fuel → count ≠ 5 →
    serverLoop fuel bit i count = some (bit.take i ++ stuffRest (bit.drop i) count) := by
  induction n with
  | zero =>
    intro fuel bit i count hn _ _
    have hi : ¬ i < bit.length := by omega
    unfold serverLoop
    rw [if_neg hi, List.take_of_length_le (by omega), List.drop_eq_nil_of_le (by omega)]
    simp [stuffRest]
  | succ n ih =>
    intro fuel bit i count hn hfuel hcount
    have hi : i < bit.length := by omega
    obtain ⟨fuel1, rfl⟩ : ∃ f, fuel = f + 1 := ⟨fuel - 1, by omega⟩
    obtain ⟨fuel2, rfl⟩ : ∃ f, fuel1 = f + 1 := ⟨fuel1 - 1, by omega⟩
    have hcnt : ∀ c : Char, (if c = '0' then 0 else if c = '1' then count + 1 else count)
        = (if c = '0' then 0 else (if c = '1' then count + 1 else count)) := fun _ => rfl
    rw [drop_eq_cons hi]
    unfold serverLoop
    rw [if_pos hi]
    simp only []
    by_cases h5 : (if bit.getD i (Char.ofNat 0) = '0' then 0
        else if bit.getD i (Char.ofNat 0) = '1' then count + 1 else count) = 5
    · rw [if_pos h5]
      unfold stuffRest
      rw [if_pos h5, shiftLoop_eq]
      -- the next round reads the inserted '0'
      have hlen : (bit.take (i + 1) ++ '0' :: bit.drop (i + 1)).length = bit.length + 1 := by
        simp; omega
      have hi1 : i + 1 < (bit.take (i + 1) ++ '0' :: bit.drop (i + 1)).length := by omega
      have hget : (bit.take (i + 1) ++ '0' :: bit.drop (i + 1)).getD (i + 1) (Char.ofNat 0)
          = '0' := by
        have hl : (bit.take (i + 1)).length = i + 1 := by simp; omega
        rw [List.getD_eq_getElem?_getD, List.getElem?_append_right (by omega), hl]
        simp
      unfold serverLoop
      rw [if_pos hi1]
      simp only [hget, if_true]
      have h05 : ¬ ((0 : Nat) = 5) := by decide
      rw [if_neg h05, ih fuel2 _ (i + 1 + 1) 0 (by omega) (by omega) (by decide)]
      have htake : (bit.take (i + 1) ++ '0' :: bit.drop (i + 1)).take (i + 1 + 1)
          = bit.take i ++ [bit.getD i (Char.ofNat 0), '0'] := by
        have hl : (bit.take (i + 1)).length = i + 1 := by simp; omega
        rw [List.take_append_eq_append_take, hl, List.take_of_length_le (by omega),
          take_succ_eq hi]
        simp
      have hdrop : (bit.take (i + 1) ++ '0' :: bit.drop (i + 1)).drop (i + 1 + 1)
          = bit.drop (i + 1) := by
        have hl : (bit.take (i + 1)).length = i + 1 := by simp; omega
        rw [List.drop_append_eq_append_drop, hl, List.drop_of_length_le (by omega)]
        simp
      rw [htake, hdrop]
      simp
    · rw [if_neg h5]
      rw [ih (fuel2 + 1) bit (i + 1) _ (by omega) (by omega) h5]
      conv_rhs => unfold stuffRest
      rw [if_neg h5, take_succ_eq hi]
      simp

/-! ### Runs of five `'1'`s -/

theorem zero_not_mem_ones (n : Nat) : '0' ∉ List.replicate n '1' := by
  intro h
  have := List.eq_of_mem_replicate h
  exact absurd this (by decide)

/-- A run of `'1'`s inside `a ++ '0' :: b` lies inside `a` or inside `b`. -/
theorem ones_infix_split {n : Nat} {a b : List Char}
    (h : List.replicate n '1' <:+: a ++ '0' :: b) :
    List.replicate n '1' <:+: a ∨ List.replicate n '1' <:+: b := by
  obtain ⟨s, t, hst⟩ := h
  rcases List.append_eq_append_iff.1 hst with ⟨a', ha, _⟩ | ⟨c', hc, hb⟩
  · exact Or.inl ⟨s, a', ha.symm⟩
  · cases c' with
    | nil =>
      simp only [List.append_nil] at hc
      exact Or.inl ⟨s, [], by simp [hc]⟩
    | cons x c'' =>
      simp only [List.cons_append, List.cons.injEq] at hb
      obtain ⟨hx, hb⟩ := hb
      subst hx
      rcases List.append_eq_append_iff.1 hc with ⟨a', _, hr⟩ | ⟨c3, hs, hr⟩
      · exfalso
        apply zero_not_mem_ones n
        rw [hr]; simp
      · cases c3 with
        | nil =>
          exfalso
          apply zero_not_mem_ones n
          simp only [List.nil_append] at hr
          rw [← hr]; simp
        | cons y c4 =>
          simp only [List.cons_append, List.cons.injEq] at hr
          exact Or.inr ⟨c4, t, by rw [hb, hr.2]⟩

theorem not_infix_of_length_lt {l m : List Char} (h : m.length < l.length) : ¬ l <:+: m :=
  fun hin => by have := hin.length_le; omega

/-- A string over `'0'`/`'1'` holds five consecutive `'1'`s, counting the
`count` ones just before it, exactly when the counter reaches 5. -/
theorem counterReachesFive_iff : ∀ (l : List Char) (count : Nat), count ≤ 4 →
    (∀ c, c ∈ l → c = '0' ∨ c = '1') →
    (counterReachesFive l count = true ↔
      List.replicate 5 '1' <:+: List.replicate count '1' ++ l) := by
  intro l
  induction l with
  | nil =>
    intro count hc _
    simp only [counterReachesFive, List.append_nil]
    constructor
    · intro h; exact Bool.noConfusion h
    · intro h
      exact absurd h (not_infix_of_length_lt (by simp; omega))
  | cons c rest ih =>
    intro count hc hbits
    have hrest : ∀ x, x ∈ rest → x = '0' ∨ x = '1' :=
      fun x hx => hbits x (List.mem_cons_of_mem c hx)
    unfold counterReachesFive
    rcases hbits c (List.mem_cons_self c rest) with h0 | h1
    · subst h0
      have h01 : ¬ ('0' : Char) = '1' := by decide
      rw [if_neg h01, ih 0 (by omega) hrest]
      simp only [List.replicate_zero, List.nil_append]
      constructor
      · intro h
        exact List.IsInfix.trans h ⟨List.replicate count '1' ++ ['0'], [], by simp⟩
      · intro h
        rcases ones_infix_split h with h | h
        · exact absurd h (not_infix_of_length_lt (by simp; omega))
        · exact h
    · subst h1
      rw [if_pos rfl]
      have happ : List.replicate count '1' ++ '1' :: rest
          = List.replicate (count + 1) '1' ++ rest := by
        rw [List.replicate_succ', List.append_assoc]; rfl
      rw [happ]
      by_cases h5 : count + 1 = 5
      · simp only [h5, decide_True, Bool.true_or, true_iff]
        exact ⟨[], rest, by simp⟩
      · simp only [h5, decide_False, Bool.false_or]
        exact ih (count + 1) (by omega) hrest

/-- Without five consecutive `'1'`s `bit_stuffing` inserts nothing. -/
theorem bitStuffingLoop_id : ∀ (l : List Char) (count : Nat) (flag : Bool),
    counterReachesFive l count = false → bitStuffingLoop l count flag = l := by
  intro l
  induction l with
  | nil => intro count flag _; rfl
  | cons c rest ih =>
    intro count flag h
    unfold counterReachesFive at h
    unfold bitStuffingLoop
    by_cases hc : c = '1'
    · rw [if_pos hc] at h
      simp only [Bool.or_eq_false_iff, decide_eq_false_iff_not] at h
      rw [if_pos hc, if_neg (fun hh => h.1 hh.1), ih _ _ h.2]
    · rw [if_neg hc] at h
      rw [if_neg hc, ih _ _ h]

/-- On a string over `'0'`/`'1'` without five consecutive `'1'`s the
server's loop inserts nothing. -/
theorem stuffRest_id : ∀ (l : List Char) (count : Nat),
    (∀ c, c ∈ l → c = '0' ∨ c = '1') →
    counterReachesFive l count = false → stuffRest l count = l := by
  intro l
  induction l with
  | nil => intro count _ _; rfl
  | cons c rest ih =>
    intro count hbits h
    have hrest : ∀ x, x ∈ rest → x = '0' ∨ x = '1' :=
      fun x hx => hbits x (List.mem_cons_of_mem c hx)
    unfold counterReachesFive at h
    unfold stuffRest
    rcases hbits c (List.mem_cons_self c rest) with h0 | h1
    · subst h0
      have h01 : ¬ ('0' : Char) = '1' := by decide
      rw [if_neg h01] at h
      simp only [if_true]
      rw [if_neg (by decide), ih 0 hrest h]
    · subst h1
      have h10 : ¬ ('1' : Char) = '0' := by decide
      rw [if_pos rfl] at h
      simp only [Bool.or_eq_false_iff, decide_eq_false_iff_not] at h
      simp only [h10, if_false, if_true]
      rw [if_neg h.1, ih _ hrest h.2]

theorem length_bitStuffingLoop_ge : ∀ (l : List Char) (count : Nat) (flag : Bool),
    l.length ≤ (bitStuffingLoop l count flag).length := by
  intro l
  induction l with
  | nil => intro _ _; simp [bitStuffingLoop]
  | cons c rest ih =>
    intro count flag
    unfold bitStuffingLoop
    split
    · split
      · have := ih 0 false
        simp only [List.length_cons]; omega
      · have := ih (count + 1) flag
        simp only [List.length_cons]; omega
    · have := ih 0 true
      simp only [List.length_cons]; omega

theorem bitStuffingLoop_eq_or_longer : ∀ (l : List Char) (count : Nat) (flag : Bool),
    bitStuffingLoop l count flag = l ∨ l.length < (bitStuffingLoop l count flag).length := by
  intro l
  induction l with
  | nil => intro _ _; exact Or.inl rfl
  | cons c rest ih =>
    intro count flag
    unfold bitStuffingLoop
    split
    · split
      · right
        have := length_bitStuffingLoop_ge rest 0 false
        simp only [List.length_cons]; omega
      · rcases ih (count + 1) flag with h | h
        · left; rw [h]
        · right; simp only [List.length_cons]; omega
    · rcases ih 0 true with h | h
      · left; rw [h]
      · right; simp only [List.length_cons]; omega

theorem length_stuffRest_ge : ∀ (l : List Char) (count : Nat),
    l.length ≤ (stuffRest l count).length := by
  intro l
  induction l with
  | nil => intro _; simp [stuffRest]
  | cons c rest ih =>
    intro count
    unfold stuffRest
    by_cases h5 : (if c = '0' then 0 else if c = '1' then count + 1 else count) = 5
    · rw [if_pos h5]
      have := ih 0
      simp only [List.length_cons]; omega
    · rw [if_neg h5]
      have := ih (if c = '0' then 0 else if c = '1' then count + 1 else count)
      simp only [List.length_cons]; omega

/-- On a string over `'0'`/`'1'` with five consecutive `'1'`s the server's
loop inserts at least one character. -/
theorem length_stuffRest_gt : ∀ (l : List Char) (count : Nat),
    (∀ c, c ∈ l → c = '0' ∨ c = '1') →
    counterReachesFive l count = true → l.length < (stuffRest l count).length := by
  intro l
  induction l with
  | nil => intro count _ h; exact Bool.noConfusion h
  | cons c rest ih =>
    intro count hbits h
    have hrest : ∀ x, x ∈ rest → x = '0' ∨ x = '1' :=
      fun x hx => hbits x (List.mem_cons_of_mem c hx)
    unfold counterReachesFive at h
    unfold stuffRest
    rcases hbits c (List.mem_cons_self c rest) with h0 | h1
    · subst h0
      have h01 : ¬ ('0' : Char) = '1' := by decide
      rw [if_neg h01] at h
      simp only [if_true]
      rw [if_neg (by decide)]
      have := ih 0 hrest h
      simp only [List.length_cons]; omega
    · subst h1
      have h10 : ¬ ('1' : Char) = '0' := by decide
      rw [if_pos rfl] at h
      simp only [h10, if_false, if_true]
      by_cases h5 : count + 1 = 5
      · rw [if_pos h5]
        have := length_stuffRest_ge rest 0
        simp only [List.length_cons]; omega
      · rw [if_neg h5]
        simp only [h5, decide_False, Bool.false_or] at h
        have := ih (count + 1) hrest h
        simp only [List.length_cons]; omega

/-- Claim C7 as stated fails: the server's loop inserts guard bits, it
removes none.  For `s = 111110`, `bit_stuffing(s)` is `111110` and the loop
turns it into `1111100`; applied to `1111100` the loop returns `11111000`,
not `111110`. -/
theorem server_loop_not_destuffing :
    serverStuff 14 (bit_stuffing "111110".toList) = some "1111100".toList ∧
      serverStuff 14 (bit_stuffing "111110".toList) ≠ some "111110".toList ∧
      serverStuff 14 "1111100".toList = some "11111000".toList := by
  decide

/-- Claim C7, amended: for every bit-string `s` the server's in-place loop,
applied to `bit_stuffing(s)` with two rounds of fuel per character, returns
a string at least as long as `s`, and that string is `s` exactly when `s`
holds no five consecutive `'1'`s (both routines then leave `s` unchanged). -/
theorem server_loop_roundtrip_iff (s : List Char) (hbits : ∀ c, c ∈ s → c = '0' ∨ c = '1')
    (fuel : Nat) (hfuel : 2 * (bit_stuffing s).length ≤ fuel) :
    ∃ t, serverStuff fuel (bit_stuffing s) = some t ∧ s.length ≤ t.length ∧
      (t = s ↔ ¬ List.replicate 5 '1' <:+: s) := by
  have hloop := serverLoop_eq (bit_stuffing s).length fuel (bit_stuffing s) 0 0 rfl hfuel
    (by decide)
  simp only [List.take_zero, List.nil_append, List.drop_zero] at hloop
  have hrun := counterReachesFive_iff s 0 (by omega) hbits
  simp only [List.replicate_zero, List.nil_append] at hrun
  have hge : s.length ≤ (stuffRest (bit_stuffing s) 0).length :=
    Nat.le_trans (length_bitStuffingLoop_ge s 0 false) (length_stuffRest_ge _ 0)
  refine ⟨_, hloop, hge, ?_⟩
  constructor
  · intro ht hin
    have hreach := hrun.2 hin
    have hlen : (stuffRest (bit_stuffing s) 0).length = s.length := by rw [ht]
    rcases bitStuffingLoop_eq_or_longer s 0 false with h | h
    · have h' : bit_stuffing s = s := h
      rw [h'] at hlen
      have := length_stuffRest_gt s 0 hbits hreach
      omega
    · have h' : s.length < (bit_stuffing s).length := h
      have := length_stuffRest_ge (bit_stuffing s) 0
      omega
  · intro hno
    have hreach : counterReachesFive s 0 = false := by
      cases h : counterReachesFive s 0 with
      | false => rfl
      | true => exact absurd (hrun.1 h) hno
    have h1 : bit_stuffing s = s := bitStuffingLoop_id s 0 false hreach
    rw [h1]
    exact stuffRest_id s 0 hbits hreach

/-- Two concrete cases: `110110` has no five consecutive `'1'`s and comes
back unchanged; `111110` has, so what comes back is another string. -/
theorem server_loop_roundtrip_iff_witness :
    (∃ t, serverStuff 12 (bit_stuffing "110110".toList) = some t ∧
      "110110".toList.length ≤ t.length ∧
      (t = "110110".toList ↔ ¬ List.replicate 5 '1' <:+: "110110".toList)) ∧
    serverStuff 12 (bit_stuffing "110110".toList) = some "110110".toList :=
  ⟨server_loop_roundtrip_iff "110110".toList (by decide) 12 (by decide), by decide⟩

/-! ### No six consecutive `'1'`s after the server's loop -/

/-- What the server's loop leaves of the rest of the buffer, put after the
`count` ones just before it, holds no six consecutive `'1'`s. -/
theorem stuffRest_no_six : ∀ (l : List Char) (count : Nat), count ≤ 4 →
    (∀ c, c ∈ l → c = '0' ∨ c = '1') →
    ¬ List.replicate 6 '1' <:+: List.replicate count '1' ++ stuffRest l count := by
  intro l
  induction l with
  | nil =>
    intro count hc _
    simp only [stuffRest, List.append_nil]
    exact not_infix_of_length_lt (by simp; omega)
  | cons c rest ih =>
    intro count hc hbits
    have hrest : ∀ x, x ∈ rest → x = '0' ∨ x = '1' :=
      fun x hx => hbits x (List.mem_cons_of_mem c hx)
    have h0 := ih 0 (by omega) hrest
    simp only [List.replicate_zero, List.nil_append] at h0
    unfold stuffRest
    rcases hbits c (List.mem_cons_self c rest) with hc0 | hc1
    · subst hc0
      simp only [if_true]
      rw [if_neg (by decide)]
      intro h
      rcases ones_infix_split h with h | h
      · exact not_infix_of_length_lt (by simp; omega) h
      · exact h0 h
    · subst hc1
      have h10 : ¬ ('1' : Char) = '0' := by decide
      simp only [h10, if_false, if_true]
      by_cases h5 : count + 1 = 5
      · rw [if_pos h5]
        have happ : List.replicate count '1' ++ '1' :: '0' :: stuffRest rest 0
            = List.replicate (count + 1) '1' ++ '0' :: stuffRest rest 0 := by
          rw [List.replicate_succ', List.append_assoc]; rfl
        rw [happ]
        intro h
        rcases ones_infix_split h with h | h
        · exact not_infix_of_length_lt (by simp; omega) h
        · exact h0 h
      · rw [if_neg h5]
        have happ : List.replicate count '1' ++ '1' :: stuffRest rest (count + 1)
            = List.replicate (count + 1) '1' ++ stuffRest rest (count + 1) := by
          rw [List.replicate_succ', List.append_assoc]; rfl
        rw [happ]
        exact ih (count + 1) (by omega) hrest

/-- The server's loop inserts at most one character for every five it reads. -/
theorem length_stuffRest_le : ∀ (l : List Char) (count : Nat), count ≤ 4 →
    (∀ c, c ∈ l → c = '0' ∨ c = '1') →
    (stuffRest l count).length ≤ l.length + (l.length + count) / 5 := by
  intro l
  induction l with
  | nil => intro count _ _; simp [stuffRest]
  | cons c rest ih =>
    intro count hc hbits
    have hrest : ∀ x, x ∈ rest → x = '0' ∨ x = '1' :=
      fun x hx => hbits x (List.mem_cons_of_mem c hx)
    have h0 := ih 0 (by omega) hrest
    unfold stuffRest
    rcases hbits c (List.mem_cons_self c rest) with hc0 | hc1
    · subst hc0
      simp only [if_true]
      rw [if_neg (by decide)]
      simp only [List.length_cons]
      omega
    · subst hc1
      have h10 : ¬ ('1' : Char) = '0' := by decide
      simp only [h10, if_false, if_true]
      by_cases h5 : count + 1 = 5
      · rw [if_pos h5]
        simp only [List.length_cons]
        omega
      · rw [if_neg h5]
        have := ih (count + 1) (by omega) hrest
        simp only [List.length_cons]
        omega

/-- Claim C11: for every string `s` over `'0'`/`'1'` that fits the buffer
`bit[100]` together with the characters the loop inserts, the server's
in-place loop (given two rounds of fuel per character) returns, and the
string it leaves in `bit` holds no run of six consecutive `'1'`s.  That
string is `stuffRest s 0`: every `'1'` that brings the run counter to five
is followed by one inserted `'0'`, the rest of the string moving right by
one; it still fits the buffer. -/
theorem server_loop_no_six_ones (s : List Char) (hbits : ∀ c, c ∈ s → c = '0' ∨ c = '1')
    (hfit : s.length + s.length / 5 < 100) (fuel : Nat) (hfuel : 2 * s.length ≤ fuel) :
    ∃ t, serverStuff fuel s = some t ∧ t = stuffRest s 0 ∧ t.length < 100 ∧
      ¬ List.replicate 6 '1' <:+: t := by
  have hloop := serverLoop_eq s.length fuel s 0 0 rfl hfuel (by decide)
  simp only [List.take_zero, List.nil_append, List.drop_zero] at hloop
  have hlen := length_stuffRest_le s 0 (by omega) hbits
  have hno := stuffRest_no_six s 0 (by omega) hbits
  simp only [List.replicate_zero, List.nil_append] at hno
  exact ⟨_, hloop, rfl, by omega, hno⟩

/-- Thirteen `'1'`s in a row come back as `111110111110111`: a `'0'` after
the fifth and after the tenth, and no six `'1'`s in a row. -/
theorem server_loop_no_six_ones_witness :
    (∃ t, serverStuff 26 "1111111111111".toList = some t ∧
      t = stuffRest "1111111111111".toList 0 ∧ t.length < 100 ∧
      ¬ List.replicate 6 '1' <:+: t) ∧
    serverStuff 26 "1111111111111".toList = some "111110111110111".toList :=
  ⟨server_loop_no_six_ones "1111111111111".toList (by decide) (by decide) 26 (by decide),
    by decide⟩

end BitStuff

namespace MsgQueue

/-- Claim C9, evaluated at `num = -2`: `toBinary` writes the 32 digits of
`2 ^ 32 - 2` and `toHex` writes `FFFFFFFE`, the same number, but `toOctal`
writes `77777777776`, which is `2 ^ 33 - 2`: its leading digit
`(num >> 30) & 7` takes in a third, sign-extended bit. -/
theorem toOctal_negative_differs :
    toBinary (-2) = "11111111111111111111111111111110".toList ∧
      readBase 2 (toBinary (-2)) = 2 ^ 32 - 2 ∧
      toHex (-2) = "FFFFFFFE".toList ∧
      readBase 16 (toHex (-2)) = 2 ^ 32 - 2 ∧
      toOctal (-2) = "77777777776".toList ∧
      readBase 8 (toOctal (-2)) = 2 ^ 33 - 2 := by
  decide

/-! ### The converters on non-negative input -/

theorem foldl_readBase (b : Nat) (l : List Char) : ∀ acc : Nat,
    l.foldl (fun a c => a * b + digitOf c) acc
      = acc * b ^ l.length + l.foldl (fun a c => a * b + digitOf c) 0 := by
  induction l with
  | nil => intro acc; simp
  | cons c cs ih =>
    intro acc
    simp only [List.foldl_cons, List.length_cons]
    rw [ih (acc * b + digitOf c), ih (0 * b + digitOf c), pow_succ]
    ring

theorem readBase_nil (b : Nat) : readBase b [] = 0 := rfl

theorem readBase_cons (b : Nat) (c : Char) (l : List Char) :
    readBase b (c :: l) = digitOf c * b ^ l.length + readBase b l := by
  simp only [readBase, List.foldl_cons]
  rw [foldl_readBase]
  simp

theorem readBase_append (b : Nat) (l : List Char) (c : Char) :
    readBase b (l ++ [c]) = readBase b l * b + digitOf c := by
  simp [readBase, List.foldl_append]

theorem digitOf_decimal {d : Nat} (h : d < 10) :
    digitOf (Char.ofNat (d + '0'.toNat)) = d ∧ (d ≠ 0 → Char.ofNat (d + '0'.toNat) ≠ '0') := by
  interval_cases d <;> decide

theorem digitOf_letter {d : Nat} (h1 : 10 ≤ d) (h2 : d < 16) :
    digitOf (Char.ofNat (d - 10 + 'A'.toNat)) = d ∧ Char.ofNat (d - 10 + 'A'.toNat) ≠ '0' := by
  interval_cases d <;> decide

/-- One round of the loop of `toOctal` on a non-negative number. -/
theorem toOctalLoop_cons (N shift : Nat) (rest : List Nat) (oct : List Char) :
    toOctalLoop (N : Int) (shift :: rest) oct =
      if oct.length ≠ 0 ∨ (N >>> shift) % 8 ≠ 0 then
        toOctalLoop (N : Int) rest (oct ++ [Char.ofNat ((N >>> shift) % 8 + '0'.toNat)])
      else toOctalLoop (N : Int) rest oct := by
  have h : ((N : Int) >>> shift) % 8 = (((N >>> shift) % 8 : Nat) : Int) := by
    show ((N >>> shift : Nat) : Int) % 8 = _
    omega
  simp only [toOctalLoop, h, Int.toNat_ofNat, Nat.cast_eq_zero, ne_eq]

/-- One round of the loop of `toHex` on a non-negative number. -/
theorem toHexLoop_cons (N shift : Nat) (rest : List Nat) (hex : List Char) :
    toHexLoop (N : Int) (shift :: rest) hex =
      if hex.length ≠ 0 ∨ (N >>> shift) % 16 ≠ 0 then
        toHexLoop (N : Int) rest
          (hex ++ [if (N >>> shift) % 16 < 10 then Char.ofNat ((N >>> shift) % 16 + '0'.toNat)
                   else Char.ofNat ((N >>> shift) % 16 - 10 + 'A'.toNat)])
      else toHexLoop (N : Int) rest hex := by
  have h : ((N : Int) >>> shift) % 16 = (((N >>> shift) % 16 : Nat) : Int) := by
    show ((N >>> shift : Nat) : Int) % 16 = _
    omega
  have h10 : ((((N >>> shift) % 16 : Nat) : Int) < 10) ↔ (N >>> shift) % 16 < 10 := by omega
  simp only [toHexLoop, h, Int.toNat_ofNat, Nat.cast_eq_zero, ne_eq, h10]

theorem shifts_succ (k j : Nat) :
    (List.range (j + 1)).map (fun i => k * (j + 1 - 1 - i))
      = k * j :: (List.range j).map (fun i => k * (j - 1 - i)) := by
  rw [List.range_succ_eq_map, List.map_cons, List.map_map]
  have : ((fun i => k * (j + 1 - 1 - i)) ∘ Nat.succ) = fun i => k * (j - 1 - i) := by
    funext i
    have : j + 1 - 1 - i.succ = j - 1 - i := by omega
    simp only [Function.comp, this]
  rw [this]
  simp

theorem head_append_singleton {oct : List Char} {x c : Char}
    (h : (oct ++ [x]).head? = some c) : (oct = [] ∧ c = x) ∨ oct.head? = some c := by
  cases oct with
  | nil => left; simp at h; exact ⟨rfl, h.symm⟩
  | cons y ys => right; simpa using h

/-- The loop of `toOctal` on a non-negative number: when the digits written
so far spell `N / 8 ^ j` without a leading zero and the shifts
`3 (j - 1), ..., 3, 0` are left, the loop ends with a numeral that spells
`N` without a leading zero. -/
theorem toOctalLoop_spec (N : Nat) : ∀ (j : Nat) (oct : List Char),
    readBase 8 oct = N / 8 ^ j → (∀ c, oct.head? = some c → c ≠ '0') →
    readBase 8 (toOctalLoop (N : Int) ((List.range j).map (fun i => 3 * (j - 1 - i))) oct) = N ∧
    ∀ c, (toOctalLoop (N : Int) ((List.range j).map (fun i => 3 * (j - 1 - i))) oct).head?
      = some c → c ≠ '0' := by
  intro j
  induction j with
  | zero =>
    intro oct hval hhead
    simp only [List.range_zero, List.map_nil, toOctalLoop]
    exact ⟨by simpa using hval, hhead⟩
  | succ j ih =>
    intro oct hval hhead
    have hd : (N >>> (3 * j)) % 8 = N / 8 ^ j % 8 := by
      rw [Nat.shiftRight_eq_div_pow, pow_mul]; norm_num
    have hdiv : N / 8 ^ (j + 1) = N / 8 ^ j / 8 := by
      rw [pow_succ, Nat.div_div_eq_div_mul]
    rw [hdiv] at hval
    have hlt : N / 8 ^ j % 8 < 10 := by omega
    rw [shifts_succ, toOctalLoop_cons, hd]
    by_cases hc : oct.length ≠ 0 ∨ N / 8 ^ j % 8 ≠ 0
    · rw [if_pos hc]
      apply ih
      · rw [readBase_append, (digitOf_decimal hlt).1, hval]; omega
      · intro c hhd
        rcases head_append_singleton hhd with ⟨hnil, hcx⟩ | h
        · rw [hcx]
          apply (digitOf_decimal hlt).2
          rcases hc with hc | hc
          · rw [hnil] at hc; simp at hc
          · exact hc
        · exact hhead c h
    · rw [if_neg hc]
      have hc' : oct.length = 0 ∧ N / 8 ^ j % 8 = 0 := by omega
      have hnil : oct = [] := List.length_eq_zero.1 hc'.1
      apply ih _ _ hhead
      rw [hnil, readBase_nil] at hval ⊢
      omega

/-- The loop of `toHex` on a non-negative number, as for `toOctal`. -/
theorem toHexLoop_spec (N : Nat) : ∀ (j : Nat) (hex : List Char),
    readBase 16 hex = N / 16 ^ j → (∀ c, hex.head? = some c → c ≠ '0') →
    readBase 16 (toHexLoop (N : Int) ((List.range j).map (fun i => 4 * (j - 1 - i))) hex) = N ∧
    ∀ c, (toHexLoop (N : Int) ((List.range j).map (fun i => 4 * (j - 1 - i))) hex).head?
      = some c → c ≠ '0' := by
  intro j
  induction j with
  | zero =>
    intro hex hval hhead
    simp only [List.range_zero, List.map_nil, toHexLoop]
    exact ⟨by simpa using hval, hhead⟩
  | succ j ih =>
    intro hex hval hhead
    have hd : (N >>> (4 * j)) % 16 = N / 16 ^ j % 16 := by
      rw [Nat.shiftRight_eq_div_pow, pow_mul]; norm_num
    have hdiv : N / 16 ^ (j + 1) = N / 16 ^ j / 16 := by
      rw [pow_succ, Nat.div_div_eq_div_mul]
    rw [hdiv] at hval
    have hdig : digitOf (if N / 16 ^ j % 16 < 10 then Char.ofNat (N / 16 ^ j % 16 + '0'.toNat)
          else Char.ofNat (N / 16 ^ j % 16 - 10 + 'A'.toNat)) = N / 16 ^ j % 16 ∧
        (N / 16 ^ j % 16 ≠ 0 →
          (if N / 16 ^ j % 16 < 10 then Char.ofNat (N / 16 ^ j % 16 + '0'.toNat)
            else Char.ofNat (N / 16 ^ j % 16 - 10 + 'A'.toNat)) ≠ '0') := by
      by_cases h10 : N / 16 ^ j % 16 < 10
      · rw [if_pos h10]; exact digitOf_decimal h10
      · rw [if_neg h10]
        have := digitOf_letter (d := N / 16 ^ j % 16) (by omega) (by omega)
        exact ⟨this.1, fun _ => this.2⟩
    rw [shifts_succ, toHexLoop_cons, hd]
    by_cases hc : hex.length ≠ 0 ∨ N / 16 ^ j % 16 ≠ 0
    · rw [if_pos hc]
      apply ih
      · rw [readBase_append, hdig.1, hval]; omega
      · intro c hhd
        rcases head_append_singleton hhd with ⟨hnil, hcx⟩ | h
        · rw [hcx]
          apply hdig.2
          rcases hc with hc | hc
          · rw [hnil] at hc; simp at hc
          · exact hc
        · exact hhead c h
    · rw [if_neg hc]
      have hc' : hex.length = 0 ∧ N / 16 ^ j % 16 = 0 := by omega
      have hnil : hex = [] := List.length_eq_zero.1 hc'.1
      apply ih _ _ hhead
      rw [hnil, readBase_nil] at hval ⊢
      omega

/-- The characters `toBinary` writes for the `j` low bits of a non-negative
number spell the number modulo `2 ^ j`. -/
theorem binaryDigits_spec (N : Nat) : ∀ j : Nat,
    readBase 2 ((List.range j).map
      (fun k => if ((N : Int) >>> (j - 1 - k)) % 2 ≠ 0 then '1' else '0')) = N % 2 ^ j := by
  intro j
  induction j with
  | zero => simp [readBase_nil, Nat.mod_one]
  | succ j ih =>
    have hlist : (List.range (j + 1)).map
          (fun k => if ((N : Int) >>> (j + 1 - 1 - k)) % 2 ≠ 0 then '1' else '0')
        = (if ((N : Int) >>> j) % 2 ≠ 0 then '1' else '0') ::
          (List.range j).map (fun k => if ((N : Int) >>> (j - 1 - k)) % 2 ≠ 0 then '1' else '0') := by
      rw [List.range_succ_eq_map, List.map_cons, List.map_map]
      have : ((fun k => if ((N : Int) >>> (j + 1 - 1 - k)) % 2 ≠ 0 then '1' else '0') ∘ Nat.succ)
          = fun k => if ((N : Int) >>> (j - 1 - k)) % 2 ≠ 0 then '1' else '0' := by
        funext i
        have : j + 1 - 1 - i.succ = j - 1 - i := by omega
        simp only [Function.comp, this]
      rw [this]
      simp
    rw [hlist, readBase_cons, ih, Nat.mod_pow_succ]
    have hbit : ((N : Int) >>> j) % 2 = (((N / 2 ^ j) % 2 : Nat) : Int) := by
      show ((N >>> j : Nat) : Int) % 2 = _
      rw [Nat.shiftRight_eq_div_pow]
      omega
    rw [hbit]
    simp only [List.length_map, List.length_range]
    have h2 : N / 2 ^ j % 2 = 0 ∨ N / 2 ^ j % 2 = 1 := by omega
    rcases h2 with h | h
    · rw [h]
      have : digitOf (if ((0 : Nat) : Int) ≠ 0 then '1' else '0') = 0 := by decide
      rw [this]; omega
    · rw [h]
      have : digitOf (if ((1 : Nat) : Int) ≠ 0 then '1' else '0') = 1 := by decide
      rw [this]
      ring

/-- For every `int` from 0 to `2 ^ 31 - 1` the three converters write the same
number: `toBinary` writes 32 characters that spell it in base 2, and `toOctal`
and `toHex` write numerals of at least one digit, without a leading zero
(except the numeral `0` itself), that spell it in base 8 and base 16. -/
theorem converters_agree_nonneg (n : Int) (h0 : 0 ≤ n) (h1 : n < 2 ^ 31) :
    (toBinary n).length = 32 ∧ readBase 2 (toBinary n) = n.toNat ∧
    readBase 8 (toOctal n) = n.toNat ∧ readBase 16 (toHex n) = n.toNat ∧
    toOctal n ≠ [] ∧ toHex n ≠ [] ∧
    (toOctal n = ['0'] ∨ ∀ c, (toOctal n).head? = some c → c ≠ '0') ∧
    (toHex n = ['0'] ∨ ∀ c, (toHex n).head? = some c → c ≠ '0') := by
  obtain ⟨N, rfl⟩ := Int.eq_ofNat_of_zero_le h0
  have hN : N < 2 ^ 31 := by exact_mod_cast h1
  simp only [Int.toNat_ofNat]
  have hoct := toOctalLoop_spec N 11 [] (by
    rw [readBase_nil]; symm; apply Nat.div_eq_of_lt; norm_num; omega) (by simp)
  have hhex := toHexLoop_spec N 8 [] (by
    rw [readBase_nil]; symm; apply Nat.div_eq_of_lt; norm_num; omega) (by simp)
  have ho : (List.range 11).map (fun k => 30 - 3 * k)
      = (List.range 11).map (fun i => 3 * (11 - 1 - i)) := by decide
  have hh : (List.range 8).map (fun k => 28 - 4 * k)
      = (List.range 8).map (fun i => 4 * (8 - 1 - i)) := by decide
  have hbin := binaryDigits_spec N 32
  refine ⟨by simp [toBinary], ?_, ?_, ?_, ?_, ?_, ?_, ?_⟩
  · have : toBinary (N : Int) = (List.range 32).map
        (fun (k : Nat) => if ((N : Int) >>> (32 - 1 - k)) % 2 ≠ 0 then '1' else '0') := rfl
    rw [this, hbin]
    exact Nat.mod_eq_of_lt (by omega)
  · simp only [toOctal, ho]
    split
    · rename_i hlen
      have := hoct.1
      rw [List.length_eq_zero.1 hlen, readBase_nil] at this
      rw [← this]; rfl
    · exact hoct.1
  · simp only [toHex, hh]
    split
    · rename_i hlen
      have := hhex.1
      rw [List.length_eq_zero.1 hlen, readBase_nil] at this
      rw [← this]; rfl
    · exact hhex.1
  · simp only [toOctal, ho]
    split
    · simp
    · rename_i hlen
      exact fun h => hlen (by rw [h]; rfl)
  · simp only [toHex, hh]
    split
    · simp
    · rename_i hlen
      exact fun h => hlen (by rw [h]; rfl)
  · simp only [toOctal, ho]
    split
    · exact Or.inl rfl
    · exact Or.inr hoct.2
  · simp only [toHex, hh]
    split
    · exact Or.inl rfl
    · exact Or.inr hhex.2

/-- The number 2024: `11111101000` in base 2 (padded to 32 characters), `3750`
in base 8 and `7E8` in base 16. -/
theorem converters_agree_nonneg_witness :
    ((toBinary 2024).length = 32 ∧ readBase 2 (toBinary 2024) = (2024 : Int).toNat ∧
      readBase 8 (toOctal 2024) = (2024 : Int).toNat ∧
      readBase 16 (toHex 2024) = (2024 : Int).toNat ∧
      toOctal 2024 ≠ [] ∧ toHex 2024 ≠ [] ∧
      (toOctal 2024 = ['0'] ∨ ∀ c, (toOctal 2024).head? = some c → c ≠ '0') ∧
      (toHex 2024 = ['0'] ∨ ∀ c, (toHex 2024).head? = some c → c ≠ '0')) ∧
    toOctal 2024 = "3750".toList ∧ toHex 2024 = "7E8".toList ∧ toOctal 0 = "0".toList :=
  ⟨converters_agree_nonneg 2024 (by decide) (by decide), by decide, by decide, by decide⟩

end MsgQueue
